import Mathlib

/-!
# The arithmetic-expression lexer of `main.go`

A shallow embedding of the scanner in `src/main.go` (types `Token` and `Lexer`,
functions `NewLexer`, `advance`, `skipWhitespace`, `skipComment`, `readNumber`,
`readIdentifier`, `peek`, `getNextToken`, and the token loop of `main`),
followed by theorems about it.

Conventions of the embedding:

* A Go `string` is its sequence of bytes, `List Byte`; the ten token kind
  constants are kept as the string constants they are in the source.
* `Lexer.currentChar` has Go type `rune`, but every value ever stored in it is
  `rune(input[i])` for a byte `input[i]`, or the constant `0`; the field is
  therefore typed as a byte-valued rune.  `string(r)` for such a rune is its
  UTF-8 encoding (`runeToString`), and `unicode.IsSpace`, `unicode.IsDigit`,
  `unicode.IsLetter` are given on the runes up to U+00FF.
* `position` is a natural number: it starts at `0` and is only incremented.
* The `for` loops of the source are run with a step budget of
  `len(input) + 1` iterations.  Every iteration advances `position` and each
  loop stops at the latest when `position` reaches `len(input)`, so the budget
  is never exhausted: `scanLoop_stateAt` (inner loops), `getNextTokenLoop_fuel`
  and `getNextToken_stateAt` (loop of `getNextToken`) and `tokensLoop_fuel`
  (loop of `main`) show that any budget of at least the number of unconsumed
  bytes gives the same result and that the loops satisfy their defining
  equations.
-/

set_option maxRecDepth 100000

namespace GoLexer

/-- A byte of a Go string. -/
abbrev Byte := Fin 256

/-- A Go `string`: a sequence of bytes. -/
abbrev GoString := List Byte

/-- UTF-8 encoding of a code point, as performed by Go's `string(r)` for a
rune `r` (invalid code points become U+FFFD). -/
def utf8 (r : Nat) : GoString :=
  if r < 0x80 then [Fin.ofNat r]
  else if r < 0x800 then [Fin.ofNat (0xC0 + r / 64), Fin.ofNat (0x80 + r % 64)]
  else if (0xD800 ≤ r ∧ r < 0xE000) ∨ 0x110000 ≤ r then [0xEF, 0xBF, 0xBD]
  else if r < 0x10000 then
    [Fin.ofNat (0xE0 + r / 4096), Fin.ofNat (0x80 + r / 64 % 64), Fin.ofNat (0x80 + r % 64)]
  else
    [Fin.ofNat (0xF0 + r / 262144), Fin.ofNat (0x80 + r / 4096 % 64),
      Fin.ofNat (0x80 + r / 64 % 64), Fin.ofNat (0x80 + r % 64)]

/-- The bytes of a Go string literal written as a Lean string. -/
def lit (s : String) : GoString :=
  (s.data.map fun c => utf8 c.toNat).flatten

/-- Go's `string(r)` for a byte-valued rune `r`. -/
def runeToString (r : Byte) : GoString := utf8 r.val

/-- Go's `unicode.IsSpace` on a rune in the Latin-1 range: tab, line feed,
vertical tab, form feed, carriage return, space, U+0085 and U+00A0. -/
def isSpace (r : Byte) : Bool :=
  r = 9 || r = 10 || r = 11 || r = 12 || r = 13 || r = 32 || r = 0x85 || r = 0xA0

/-- Go's `unicode.IsDigit` on a rune in the Latin-1 range: `0` to `9`. -/
def isDigit (r : Byte) : Bool :=
  decide (48 ≤ r.val) && decide (r.val ≤ 57)

/-- Go's `unicode.IsLetter` on a rune in the Latin-1 range: `A`-`Z`, `a`-`z`,
U+00AA, U+00B5, U+00BA, U+00C0-U+00D6, U+00D8-U+00F6 and U+00F8-U+00FF. -/
def isLetter (r : Byte) : Bool :=
  (decide (65 ≤ r.val) && decide (r.val ≤ 90)) ||
  (decide (97 ≤ r.val) && decide (r.val ≤ 122)) ||
  r = 0xAA || r = 0xB5 || r = 0xBA ||
  (decide (0xC0 ≤ r.val) && decide (r.val ≤ 0xD6)) ||
  (decide (0xD8 ≤ r.val) && decide (r.val ≤ 0xF6)) ||
  decide (0xF8 ≤ r.val)

/-- Lower-casing of one ASCII byte. -/
def lowerByte (b : Byte) : Byte :=
  if 65 ≤ b.val ∧ b.val ≤ 90 then b + 32 else b

/-- Go's `strings.ToLower` on a string that is the UTF-8 text of code points up
to U+00FF (the only strings the lexer builds): ASCII capitals and the capitals
U+00C0-U+00DE other than U+00D7, encoded as `C3 80`-`C3 9E`, are mapped to
their lower-case forms; everything else is unchanged. -/
def toLower : GoString → GoString
  | [] => []
  | [b] => [lowerByte b]
  | b1 :: b2 :: rest =>
    if b1 = 0xC3 ∧ 0x80 ≤ b2.val ∧ b2.val ≤ 0x9E ∧ b2 ≠ 0x97 then
      b1 :: (b2 + 0x20) :: toLower rest
    else
      lowerByte b1 :: toLower (b2 :: rest)

/-- Number of code points of a well-formed UTF-8 string (Go's
`utf8.RuneCountInString`): the bytes that are not continuation bytes
`10xxxxxx`. -/
def runeCount : GoString → Nat
  | [] => 0
  | b :: rest => (if 0x80 ≤ b.val ∧ b.val < 0xC0 then 0 else 1) + runeCount rest

/-! ## Token kinds (lines 12-23) -/

def NUMBER : String := "NUM"
def ID : String := "ID"
def OP : String := "OP"
def LPAR : String := "LPAR"
def RPAR : String := "RPAR"
def SEMICOLON : String := "SEMICOLON"
def DIV : String := "DIV"
def MOD : String := "MOD"
def EOF : String := "EOF"
def INVALID : String := "INVALID"

/-- `type Token struct { Type string; Value string }`. -/
structure Token where
  Typ : String
  Value : GoString
deriving DecidableEq, Repr

/-- `type Lexer struct { input string; position int; currentChar rune }`. -/
structure Lexer where
  input : GoString
  position : Nat
  currentChar : Byte
deriving DecidableEq, Repr

/-- `NewLexer` (lines 39-49). -/
def NewLexer (input : GoString) : Lexer :=
  if h : 0 < input.length then ⟨input, 0, input[0]⟩ else ⟨input, 0, 0⟩

namespace Lexer

/-- `advance` (lines 52-60). -/
def advance (l : Lexer) : Lexer :=
  let position := l.position + 1
  if h : position < l.input.length then ⟨l.input, position, l.input[position]⟩
  else ⟨l.input, position, 0⟩

/-- The loop of `skipWhitespace` with a step budget. -/
def skipWhitespaceLoop : Nat → Lexer → Lexer
  | 0, l => l
  | fuel + 1, l =>
    if l.currentChar ≠ 0 ∧ isSpace l.currentChar then skipWhitespaceLoop fuel l.advance
    else l

/-- `skipWhitespace` (lines 63-67). -/
def skipWhitespace (l : Lexer) : Lexer :=
  skipWhitespaceLoop (l.input.length + 1) l

/-- The loop of `skipComment` with a step budget. -/
def skipCommentLoop : Nat → Lexer → Lexer
  | 0, l => l
  | fuel + 1, l =>
    if l.currentChar ≠ 0 ∧ l.currentChar ≠ 10 then skipCommentLoop fuel l.advance
    else l

/-- `skipComment` (lines 70-84). -/
def skipComment (l : Lexer) : Lexer :=
  let l1 := l.advance
  let l2 := l1.advance
  let l3 := skipCommentLoop (l2.input.length + 1) l2
  if l3.currentChar = 10 then l3.advance else l3

/-- The loop of `readNumber` with a step budget; `num` is the accumulator. -/
def readNumberLoop : Nat → GoString → Lexer → GoString × Lexer
  | 0, num, l => (num, l)
  | fuel + 1, num, l =>
    if l.currentChar ≠ 0 ∧ isDigit l.currentChar then
      readNumberLoop fuel (num ++ runeToString l.currentChar) l.advance
    else (num, l)

/-- `readNumber` (lines 87-96): the string read and the lexer afterwards. -/
def readNumber (l : Lexer) : GoString × Lexer :=
  readNumberLoop (l.input.length + 1) [] l

/-- The loop of `readIdentifier` with a step budget; `id` is the accumulator. -/
def readIdentifierLoop : Nat → GoString → Lexer → GoString × Lexer
  | 0, id, l => (id, l)
  | fuel + 1, id, l =>
    if l.currentChar ≠ 0 ∧ (isLetter l.currentChar ∨ isDigit l.currentChar) then
      readIdentifierLoop fuel (id ++ runeToString l.currentChar) l.advance
    else (id, l)

/-- `readIdentifier` (lines 99-109): the string read and the lexer afterwards. -/
def readIdentifier (l : Lexer) : GoString × Lexer :=
  readIdentifierLoop (l.input.length + 1) [] l

/-- `peek` (lines 112-120). -/
def peek (l : Lexer) : Byte :=
  let peekPos := l.position + 1
  if h : peekPos ≥ l.input.length then 0 else l.input[peekPos]

/-- The part of the loop body of `getNextToken` that returns a token
(lines 139-179): number, identifier or keyword, operator, punctuation,
invalid character. -/
def produceToken (l : Lexer) : Token × Lexer :=
  if isDigit l.currentChar then
    let r := l.readNumber
    (⟨NUMBER, r.1⟩, r.2)
  else if isLetter l.currentChar then
    let r := l.readIdentifier
    if toLower r.1 = lit "div" then (⟨DIV, []⟩, r.2)
    else if toLower r.1 = lit "mod" then (⟨MOD, []⟩, r.2)
    else (⟨ID, r.1⟩, r.2)
  else if l.currentChar = 43 ∨ l.currentChar = 45 ∨ l.currentChar = 42 ∨ l.currentChar = 47 then
    (⟨OP, runeToString l.currentChar⟩, l.advance)
  else if l.currentChar = 40 then (⟨LPAR, []⟩, l.advance)
  else if l.currentChar = 41 then (⟨RPAR, []⟩, l.advance)
  else if l.currentChar = 59 then (⟨SEMICOLON, []⟩, l.advance)
  else (⟨INVALID, runeToString l.currentChar⟩, l.advance)

/-- The loop of `getNextToken` (lines 125-182) with a step budget: each
`continue` of the source is one recursive call. -/
def getNextTokenLoop : Nat → Lexer → Token × Lexer
  | 0, l => (⟨EOF, []⟩, l)
  | fuel + 1, l =>
    if l.currentChar = 0 then (⟨EOF, []⟩, l)
    else if isSpace l.currentChar then getNextTokenLoop fuel l.skipWhitespace
    else if l.currentChar = 47 ∧ l.peek = 47 then getNextTokenLoop fuel l.skipComment
    else l.produceToken

/-- `getNextToken` (lines 123-183): the token returned and the lexer
afterwards. -/
def getNextToken (l : Lexer) : Token × Lexer :=
  getNextTokenLoop (l.input.length + 1) l

/-- The result of the `(n+1)`-th of a series of consecutive `getNextToken`
calls starting in state `l`. -/
def nthCall : Nat → Lexer → Token × Lexer
  | 0, l => l.getNextToken
  | n + 1, l => nthCall n l.getNextToken.2

/-- The token loop of `main` (lines 205-218) with a budget of calls: the tokens
returned by consecutive `getNextToken` calls up to and including the first
`EOF` token. -/
def tokensLoop : Nat → Lexer → List Token
  | 0, _ => []
  | fuel + 1, l =>
    let r := l.getNextToken
    if r.1.Typ = EOF then [r.1] else r.1 :: tokensLoop fuel r.2

/-- The token sequence of a lexer, up to and including the first `EOF`. -/
def tokens (l : Lexer) : List Token :=
  tokensLoop (l.input.length + 1) l

end Lexer

/-- The token sequence of `NewLexer(input)`, up to and including the first
`EOF`. -/
def tokenize (input : GoString) : List Token :=
  (NewLexer input).tokens

/-- A lexer state reachable from `NewLexer(input)` by `getNextToken` calls. -/
inductive Reachable (input : GoString) : Lexer → Prop
  | init : Reachable input (NewLexer input)
  | step {l : Lexer} : Reachable input l → Reachable input l.getNextToken.2


/-! ## Notions used to state the claims -/

/-- An ASCII digit `0`-`9`. -/
def isAsciiDigit (c : Byte) : Bool := decide (48 ≤ c.val) && decide (c.val ≤ 57)

/-- An ASCII letter `A`-`Z` or `a`-`z`. -/
def isAsciiLetter (c : Byte) : Bool :=
  (decide (65 ≤ c.val) && decide (c.val ≤ 90)) || (decide (97 ≤ c.val) && decide (c.val ≤ 122))

/-- The strings `s` and `t` are equal ignoring ASCII case: they have the same
length and agree byte by byte once `A`-`Z` are replaced by `a`-`z`. -/
def equalFoldASCII (s t : GoString) : Prop :=
  s.map lowerByte = t.map lowerByte

instance (s t : GoString) : Decidable (equalFoldASCII s t) :=
  inferInstanceAs (Decidable (s.map lowerByte = t.map lowerByte))

/-! ## Auxiliary notions used in the proofs -/

/-- The lexer state for `input` whose cursor is at index `p`, with
`currentChar` the byte at `p`, or `0` at or beyond the end. -/
def stateAt (input : GoString) (p : Nat) : Lexer :=
  ⟨input, p, input.getD p 0⟩

/-- Loop condition of `skipWhitespace`. -/
def wsCond (c : Byte) : Bool := decide (c ≠ 0) && isSpace c

/-- Loop condition of `skipComment`. -/
def commentCond (c : Byte) : Bool := decide (c ≠ 0) && decide (c ≠ 10)

/-- Loop condition of `readNumber`. -/
def numCond (c : Byte) : Bool := decide (c ≠ 0) && isDigit c

/-- Loop condition of `readIdentifier`. -/
def identCond (c : Byte) : Bool := decide (c ≠ 0) && (isLetter c || isDigit c)

/-- The common shape of the four inner loops: while `cond currentChar`,
append `string(currentChar)` to the accumulator and advance. -/
def scanLoop (cond : Byte → Bool) : Nat → GoString → Lexer → GoString × Lexer
  | 0, acc, l => (acc, l)
  | fuel + 1, acc, l =>
    if cond l.currentChar then
      scanLoop cond fuel (acc ++ runeToString l.currentChar) l.advance
    else (acc, l)

/-- The text of the bytes `bs` read as runes: the concatenation of
`string(rune(b))`. -/
def runesText (bs : GoString) : GoString :=
  (bs.map runeToString).flatten

/-- Number of bytes `skipComment` consumes, as a function of the unconsumed
input `s` (which begins with the two slashes): the slashes, the bytes up to
the first line feed or NUL, and the line feed if there is one. -/
def commentLen (s : GoString) : Nat :=
  if ((s.drop 2).dropWhile commentCond).headD 0 = 10 then
    2 + ((s.drop 2).takeWhile commentCond).length + 1
  else 2 + ((s.drop 2).takeWhile commentCond).length

/-- Removal of a leading line feed. -/
def dropNewline (s : GoString) : GoString :=
  if s.headD 0 = 10 then s.tail else s

/-- The token returned by the token-producing part of the body and the number
of bytes it consumes, as a function of the unconsumed input `s`. -/
def suffixToken (s : GoString) : Token × Nat :=
  if isDigit (s.headD 0) then
    (⟨NUMBER, runesText (s.takeWhile numCond)⟩, (s.takeWhile numCond).length)
  else if isLetter (s.headD 0) then
    if toLower (runesText (s.takeWhile identCond)) = lit "div" then
      (⟨DIV, []⟩, (s.takeWhile identCond).length)
    else if toLower (runesText (s.takeWhile identCond)) = lit "mod" then
      (⟨MOD, []⟩, (s.takeWhile identCond).length)
    else (⟨ID, runesText (s.takeWhile identCond)⟩, (s.takeWhile identCond).length)
  else if s.headD 0 = 43 ∨ s.headD 0 = 45 ∨ s.headD 0 = 42 ∨ s.headD 0 = 47 then
    (⟨OP, runeToString (s.headD 0)⟩, 1)
  else if s.headD 0 = 40 then (⟨LPAR, []⟩, 1)
  else if s.headD 0 = 41 then (⟨RPAR, []⟩, 1)
  else if s.headD 0 = 59 then (⟨SEMICOLON, []⟩, 1)
  else (⟨INVALID, runeToString (s.headD 0)⟩, 1)

/-- The token kinds of the source. -/
def allKinds : List String :=
  [NUMBER, ID, OP, LPAR, RPAR, SEMICOLON, DIV, MOD, INVALID, EOF]

/-- The token kinds that carry no text. -/
def emptyTextKinds : List String :=
  [LPAR, RPAR, SEMICOLON, DIV, MOD, EOF]

/-- A lexer state at the head of the `for` loop of `getNextToken` (line 125)
during a call made in a reachable state: the state in which the call starts,
the state after `skipWhitespace` and `continue` (lines 128-131), or the state
after `skipComment` and `continue` (lines 134-137). -/
inductive AtLoopHead (input : GoString) : Lexer → Prop
  | enter {l : Lexer} : Reachable input l → AtLoopHead input l
  | afterWhitespace {l : Lexer} : AtLoopHead input l → l.currentChar ≠ 0 →
      isSpace l.currentChar = true → AtLoopHead input l.skipWhitespace
  | afterComment {l : Lexer} : AtLoopHead input l → l.currentChar ≠ 0 →
      isSpace l.currentChar = false → l.currentChar = 47 → l.peek = 47 →
      AtLoopHead input l.skipComment

/-- Termination of a loop `for cond(currentChar) { ...; advance() }` with the
measure `len(input) - position`.  Here `iter n` is the lexer state after the
first `n` iterations (or after the last one, if the loop stops earlier) and
`result` the state in which the loop is left:
each further iteration is one `advance`, made only while the condition holds;
whenever the condition holds the cursor is inside the input and `advance` moves
it forward by one, so the measure decreases; after `len(input) - position`
iterations at the latest the state no longer changes and is `result`; and the
condition is false in `result`. -/
def LoopTerminates (input : GoString) (cond : Byte → Bool) (iter : Nat → Lexer)
    (result : Lexer) : Prop :=
  (∀ n, iter (n + 1) = if cond (iter n).currentChar then (iter n).advance else iter n) ∧
  (∀ n, cond (iter n).currentChar = true →
    (iter n).position < input.length ∧ (iter n).advance.position = (iter n).position + 1) ∧
  (∀ n, input.length - (iter 0).position ≤ n → iter n = result) ∧
  cond result.currentChar = false


/-! ## Character classes -/

theorem runeToString_ascii (c : Byte) (h : c.val < 128) : runeToString c = [c] := by
  have : (Fin.ofNat c.val : Byte) = c := Fin.ext (by simp [Fin.ofNat])
  simp [runeToString, utf8, h, this]

theorem cond_zero : wsCond 0 = false ∧ commentCond 0 = false ∧ numCond 0 = false ∧
    identCond 0 = false := by decide

/-! ## States `stateAt input p` and the primitive operations -/

theorem getD_of_lt (input : GoString) (p : Nat) (h : p < input.length) :
    input.getD p 0 = input[p] := by
  simp [List.getD_eq_getElem?_getD, List.getElem?_eq_getElem h]

theorem getD_of_le (input : GoString) (p : Nat) (h : input.length ≤ p) :
    input.getD p 0 = 0 := by
  simp [List.getD_eq_getElem?_getD, List.getElem?_eq_none h]

theorem NewLexer_eq (input : GoString) : NewLexer input = stateAt input 0 := by
  unfold NewLexer stateAt
  cases input
  · simp
  · simp

theorem advance_stateAt (input : GoString) (p : Nat) :
    (stateAt input p).advance = stateAt input (p + 1) := by
  unfold Lexer.advance stateAt
  by_cases h : p + 1 < input.length
  · simp only [h, dite_true, getD_of_lt _ _ h]
  · simp only [h, dite_false, getD_of_le _ _ (Nat.le_of_not_lt h)]

theorem peek_stateAt (input : GoString) (p : Nat) :
    (stateAt input p).peek = input.getD (p + 1) 0 := by
  unfold Lexer.peek stateAt
  by_cases h : p + 1 < input.length
  · simp only [ge_iff_le, Nat.not_le.mpr h, dite_false, getD_of_lt _ _ h]
  · simp only [ge_iff_le, Nat.le_of_not_lt h, dite_true, getD_of_le _ _ (Nat.le_of_not_lt h)]

theorem getD_eq_headD_drop (input : GoString) (p : Nat) :
    input.getD p 0 = (input.drop p).headD 0 := by
  induction input generalizing p with
  | nil => simp
  | cons x xs ih =>
    cases p with
    | zero => simp
    | succ p => simp [ih p]

/-! ## The inner loops -/

theorem scanLoop_stateAt (cond : Byte → Bool) (h0 : cond 0 = false) (input : GoString) :
    ∀ (n : Nat) (acc : GoString) (p : Nat), input.length - p ≤ n →
      scanLoop cond n acc (stateAt input p) =
        (acc ++ runesText ((input.drop p).takeWhile cond),
          stateAt input (p + ((input.drop p).takeWhile cond).length)) := by
  intro n
  induction n with
  | zero =>
    intro acc p h
    have hp : input.length ≤ p := by omega
    simp [scanLoop, List.drop_eq_nil_of_le hp, runesText]
  | succ n ih =>
    intro acc p h
    by_cases hp : p < input.length
    · have hd : input.drop p = input[p] :: input.drop (p + 1) := List.drop_eq_getElem_cons hp
      have hc : (stateAt input p).currentChar = input[p] := getD_of_lt _ _ hp
      by_cases hcond : cond input[p] = true
      · rw [scanLoop, hc, if_pos hcond, advance_stateAt, ih _ _ (by omega), hd,
          List.takeWhile_cons_of_pos hcond]
        simp [runesText, Nat.add_assoc, Nat.add_comm 1]
      · rw [scanLoop, hc, if_neg hcond, hd, List.takeWhile_cons_of_neg hcond]
        simp [runesText]
    · have hp2 : input.length ≤ p := Nat.le_of_not_lt hp
      have hc : (stateAt input p).currentChar = 0 := getD_of_le _ _ hp2
      rw [scanLoop, hc, h0]
      simp [List.drop_eq_nil_of_le hp2, runesText]

theorem skipWhitespaceLoop_eq_scanLoop (n : Nat) (acc : GoString) (l : Lexer) :
    Lexer.skipWhitespaceLoop n l = (scanLoop wsCond n acc l).2 := by
  induction n generalizing acc l with
  | zero => rfl
  | succ n ih =>
    rw [Lexer.skipWhitespaceLoop, scanLoop]
    by_cases h : wsCond l.currentChar = true
    · have h2 := h
      simp only [wsCond, Bool.and_eq_true, decide_eq_true_eq] at h2
      rw [if_pos h2, if_pos h]
      exact ih _ _
    · have h2 := h
      simp only [wsCond, Bool.and_eq_true, decide_eq_true_eq] at h2
      rw [if_neg h2, if_neg h]

theorem skipCommentLoop_eq_scanLoop (n : Nat) (acc : GoString) (l : Lexer) :
    Lexer.skipCommentLoop n l = (scanLoop commentCond n acc l).2 := by
  induction n generalizing acc l with
  | zero => rfl
  | succ n ih =>
    rw [Lexer.skipCommentLoop, scanLoop]
    by_cases h : commentCond l.currentChar = true
    · have h2 := h
      simp only [commentCond, Bool.and_eq_true, decide_eq_true_eq] at h2
      rw [if_pos h2, if_pos h]
      exact ih _ _
    · have h2 := h
      simp only [commentCond, Bool.and_eq_true, decide_eq_true_eq] at h2
      rw [if_neg h2, if_neg h]

theorem readNumberLoop_eq_scanLoop (n : Nat) (acc : GoString) (l : Lexer) :
    Lexer.readNumberLoop n acc l = scanLoop numCond n acc l := by
  induction n generalizing acc l with
  | zero => rfl
  | succ n ih =>
    rw [Lexer.readNumberLoop, scanLoop]
    by_cases h : numCond l.currentChar = true
    · have h2 := h
      simp only [numCond, Bool.and_eq_true, decide_eq_true_eq] at h2
      rw [if_pos h2, if_pos h]
      exact ih _ _
    · have h2 := h
      simp only [numCond, Bool.and_eq_true, decide_eq_true_eq] at h2
      rw [if_neg h2, if_neg h]

theorem readIdentifierLoop_eq_scanLoop (n : Nat) (acc : GoString) (l : Lexer) :
    Lexer.readIdentifierLoop n acc l = scanLoop identCond n acc l := by
  induction n generalizing acc l with
  | zero => rfl
  | succ n ih =>
    rw [Lexer.readIdentifierLoop, scanLoop]
    by_cases h : identCond l.currentChar = true
    · have h2 := h
      simp only [identCond, Bool.and_eq_true, decide_eq_true_eq, Bool.or_eq_true] at h2
      rw [if_pos h2, if_pos h]
      exact ih _ _
    · have h2 := h
      simp only [identCond, Bool.and_eq_true, decide_eq_true_eq, Bool.or_eq_true] at h2
      rw [if_neg h2, if_neg h]

theorem advance_eq_stateAt (l : Lexer) : l.advance = stateAt l.input (l.position + 1) := by
  unfold Lexer.advance stateAt
  by_cases h : l.position + 1 < l.input.length
  · simp only [h, dite_true, getD_of_lt _ _ h]
  · simp only [h, dite_false, getD_of_le _ _ (Nat.le_of_not_lt h)]

theorem stateAt_input (input : GoString) (p : Nat) : (stateAt input p).input = input := rfl

theorem stateAt_position (input : GoString) (p : Nat) : (stateAt input p).position = p := rfl

theorem stateAt_currentChar (input : GoString) (p : Nat) :
    (stateAt input p).currentChar = input.getD p 0 := rfl

/-- If the loop condition holds at the cursor, the cursor is inside the input
and the run of bytes satisfying the condition is not empty. -/
theorem run_pos (cond : Byte → Bool) (h0 : cond 0 = false) (input : GoString) (p : Nat)
    (h : cond (input.getD p 0) = true) :
    p < input.length ∧ 1 ≤ ((input.drop p).takeWhile cond).length := by
  have hp : p < input.length := by
    by_contra hn
    rw [getD_of_le _ _ (Nat.le_of_not_lt hn), h0] at h
    exact Bool.noConfusion h
  refine ⟨hp, ?_⟩
  rw [getD_of_lt _ _ hp] at h
  rw [List.drop_eq_getElem_cons hp, List.takeWhile_cons_of_pos h]
  simp

theorem run_le (cond : Byte → Bool) (input : GoString) (p : Nat) (hp : p ≤ input.length) :
    p + ((input.drop p).takeWhile cond).length ≤ input.length := by
  have h1 : ((input.drop p).takeWhile cond).length ≤ (input.drop p).length :=
    (List.takeWhile_sublist cond).length_le
  rw [List.length_drop] at h1
  omega

theorem skipWhitespace_stateAt (input : GoString) (p : Nat) :
    (stateAt input p).skipWhitespace =
      stateAt input (p + ((input.drop p).takeWhile wsCond).length) := by
  rw [Lexer.skipWhitespace, skipWhitespaceLoop_eq_scanLoop _ [],
    scanLoop_stateAt wsCond cond_zero.1 input _ _ _ (by rw [stateAt_input]; omega)]

theorem readNumber_stateAt (input : GoString) (p : Nat) :
    (stateAt input p).readNumber =
      (runesText ((input.drop p).takeWhile numCond),
        stateAt input (p + ((input.drop p).takeWhile numCond).length)) := by
  rw [Lexer.readNumber, readNumberLoop_eq_scanLoop,
    scanLoop_stateAt numCond cond_zero.2.2.1 input _ _ _ (by rw [stateAt_input]; omega)]
  simp

theorem readIdentifier_stateAt (input : GoString) (p : Nat) :
    (stateAt input p).readIdentifier =
      (runesText ((input.drop p).takeWhile identCond),
        stateAt input (p + ((input.drop p).takeWhile identCond).length)) := by
  rw [Lexer.readIdentifier, readIdentifierLoop_eq_scanLoop,
    scanLoop_stateAt identCond cond_zero.2.2.2 input _ _ _ (by rw [stateAt_input]; omega)]
  simp

/-- Cursor index after `skipComment` started at index `p`. -/
theorem skipComment_stateAt (input : GoString) (p : Nat) :
    (stateAt input p).skipComment =
      if input.getD (p + 2 + ((input.drop (p + 2)).takeWhile commentCond).length) 0 = 10 then
        stateAt input (p + 2 + ((input.drop (p + 2)).takeWhile commentCond).length + 1)
      else stateAt input (p + 2 + ((input.drop (p + 2)).takeWhile commentCond).length) := by
  simp only [Lexer.skipComment, advance_stateAt]
  rw [skipCommentLoop_eq_scanLoop _ [],
    scanLoop_stateAt commentCond cond_zero.2.1 input _ _ _ (by rw [stateAt_input]; omega)]
  simp only [stateAt_currentChar, advance_stateAt]

/-- After `skipComment` the lexer is at some index beyond `p + 1`. -/
theorem skipComment_stateAt_exists (input : GoString) (p : Nat) :
    ∃ q, p + 2 ≤ q ∧ (p + 2 ≤ input.length → q ≤ input.length) ∧
      (stateAt input p).skipComment = stateAt input q := by
  rw [skipComment_stateAt]
  split
  · rename_i h
    refine ⟨_, by omega, ?_, rfl⟩
    intro hp
    have := run_le commentCond input (p + 2) hp
    by_contra hn
    rw [getD_of_le _ _ (by omega)] at h
    exact absurd h (by decide)
  · exact ⟨_, by omega, fun hp => run_le commentCond input (p + 2) hp, rfl⟩

/-! ## The loop of `getNextToken` -/

theorem getNextTokenLoop_fuel (input : GoString) :
    ∀ (n m p : Nat), input.length - p ≤ n → input.length - p ≤ m →
      Lexer.getNextTokenLoop n (stateAt input p) = Lexer.getNextTokenLoop m (stateAt input p) := by
  have hzero : ∀ (m p : Nat), input.length ≤ p →
      Lexer.getNextTokenLoop m (stateAt input p) = (⟨EOF, []⟩, stateAt input p) := by
    intro m p hp
    cases m with
    | zero => rfl
    | succ m => rw [Lexer.getNextTokenLoop, stateAt_currentChar, getD_of_le _ _ hp]; simp
  intro n
  induction n with
  | zero =>
    intro m p hn _
    rw [hzero 0 p (by omega), hzero m p (by omega)]
  | succ n ih =>
    intro m p hn hm
    cases m with
    | zero => rw [hzero _ p (by omega), hzero 0 p (by omega)]
    | succ m =>
      rw [Lexer.getNextTokenLoop, Lexer.getNextTokenLoop]
      split
      · rfl
      · rename_i hc0
        split
        · rename_i hsp
          have hw : wsCond (input.getD p 0) = true := by
            rw [stateAt_currentChar] at hc0 hsp
            simp only [wsCond, Bool.and_eq_true, decide_eq_true_eq, ne_eq]
            exact ⟨hc0, hsp⟩
          have := run_pos wsCond cond_zero.1 input p hw
          rw [skipWhitespace_stateAt]
          exact ih _ _ (by omega) (by omega)
        · split
          · obtain ⟨q, hq, _, he⟩ := skipComment_stateAt_exists input p
            rw [he]
            exact ih _ _ (by omega) (by omega)
          · rfl

/-- The defining equation of the loop of `getNextToken`, at a state
`stateAt input p`. -/
theorem getNextToken_stateAt (input : GoString) (p : Nat) :
    (stateAt input p).getNextToken =
      if (stateAt input p).currentChar = 0 then (⟨EOF, []⟩, stateAt input p)
      else if isSpace (stateAt input p).currentChar then
        (stateAt input p).skipWhitespace.getNextToken
      else if (stateAt input p).currentChar = 47 ∧ (stateAt input p).peek = 47 then
        (stateAt input p).skipComment.getNextToken
      else (stateAt input p).produceToken := by
  obtain ⟨q, _, _, he⟩ := skipComment_stateAt_exists input p
  rw [Lexer.getNextToken, stateAt_input, Lexer.getNextTokenLoop, skipWhitespace_stateAt, he,
    Lexer.getNextToken, Lexer.getNextToken, stateAt_input, stateAt_input,
    getNextTokenLoop_fuel input (input.length + 1) input.length _ (by omega) (by omega),
    getNextTokenLoop_fuel input (input.length + 1) input.length q (by omega) (by omega)]

/-- Induction along the loop of `getNextToken`: a property of the result holds
at every index if it holds when `EOF` is returned, is inherited from the index
reached by a skip, and holds for the token-producing part of the body. -/
theorem getNextToken_induction (input : GoString) (P : Nat → Token × Lexer → Prop)
    (heof : ∀ p, p ≤ input.length → input.getD p 0 = 0 →
      P p (⟨EOF, []⟩, stateAt input p))
    (hskip : ∀ p q r, p < q → q ≤ input.length → input.getD p 0 ≠ 0 → P q r → P p r)
    (htok : ∀ p, p < input.length → input.getD p 0 ≠ 0 → isSpace (input.getD p 0) = false →
      ¬(input.getD p 0 = 47 ∧ input.getD (p + 1) 0 = 47) →
      P p (stateAt input p).produceToken) :
    ∀ p, p ≤ input.length → P p (stateAt input p).getNextToken := by
  have main : ∀ (n p : Nat), input.length - p ≤ n → p ≤ input.length →
      P p (stateAt input p).getNextToken := by
    intro n
    induction n with
    | zero =>
      intro p hn hp
      rw [getNextToken_stateAt, stateAt_currentChar, getD_of_le _ _ (by omega)]
      simp only [if_true]
      exact heof p hp (getD_of_le _ _ (by omega))
    | succ n ih =>
      intro p hn hp
      rw [getNextToken_stateAt]
      simp only [stateAt_currentChar, peek_stateAt]
      split
      · rename_i h0
        exact heof p hp h0
      · rename_i hc0
        have hlt : p < input.length := by
          by_contra hn2
          exact hc0 (getD_of_le _ _ (Nat.le_of_not_lt hn2))
        split
        · rename_i hsp
          have hw : wsCond (input.getD p 0) = true := by
            simp only [wsCond, Bool.and_eq_true, decide_eq_true_eq, ne_eq]
            exact ⟨hc0, hsp⟩
          have h1 := run_pos wsCond cond_zero.1 input p hw
          have h2 := run_le wsCond input p hp
          rw [skipWhitespace_stateAt]
          exact hskip p _ _ (by omega) h2 hc0 (ih _ (by omega) h2)
        · rename_i hsp
          split
          · rename_i hcm
            have hpk : p + 1 < input.length := by
              by_contra hn2
              rw [getD_of_le _ _ (Nat.le_of_not_lt hn2)] at hcm
              exact absurd hcm.2 (by decide)
            obtain ⟨q, hq, hq2, he⟩ := skipComment_stateAt_exists input p
            rw [he]
            exact hskip p q _ (by omega) (hq2 (by omega)) hc0 (ih _ (by omega) (hq2 (by omega)))
          · rename_i hcm
            exact htok p hlt hc0 (by simpa using hsp) hcm
  intro p hp
  exact main (input.length - p) p (Nat.le_refl _) hp

/-! ## The token-producing part of the body -/

theorem runeCount_append (a b : GoString) : runeCount (a ++ b) = runeCount a + runeCount b := by
  induction a with
  | nil => simp [runeCount]
  | cons x xs ih => simp [runeCount, ih, Nat.add_assoc]

theorem runeCount_runeToString : ∀ c : Byte, runeCount (runeToString c) = 1 := by decide

theorem runeCount_runesText (bs : GoString) : runeCount (runesText bs) = bs.length := by
  induction bs with
  | nil => rfl
  | cons x xs ih =>
    have : runesText (x :: xs) = runeToString x ++ runesText xs := by simp [runesText]
    rw [this, runeCount_append, runeCount_runeToString, ih, List.length_cons, Nat.add_comm]

theorem kinds_ne_EOF : NUMBER ≠ EOF ∧ ID ≠ EOF ∧ OP ≠ EOF ∧ LPAR ≠ EOF ∧ RPAR ≠ EOF ∧
    SEMICOLON ≠ EOF ∧ DIV ≠ EOF ∧ MOD ≠ EOF ∧ INVALID ≠ EOF := by decide

/-- What the token-producing part of the body does at an index inside the
input holding a non-NUL byte: it returns a non-`EOF` token and moves the cursor
forward by at least one byte and at least the number of code points of the
token text, staying within the input. -/
theorem produceToken_stateAt (input : GoString) (p : Nat) (hp : p < input.length)
    (hc : input.getD p 0 ≠ 0) :
    ∃ q tok, (stateAt input p).produceToken = (tok, stateAt input q) ∧ p < q ∧
      q ≤ input.length ∧ tok.Typ ≠ EOF ∧ p + runeCount tok.Value ≤ q := by
  unfold Lexer.produceToken
  simp only [stateAt_currentChar, readNumber_stateAt, readIdentifier_stateAt, advance_stateAt]
  split
  · rename_i hd
    have hw : numCond (input.getD p 0) = true := by
      simp only [numCond, Bool.and_eq_true, decide_eq_true_eq, ne_eq]
      exact ⟨hc, hd⟩
    have h1 := run_pos numCond cond_zero.2.2.1 input p hw
    have h2 := run_le numCond input p (Nat.le_of_lt hp)
    exact ⟨_, _, rfl, by omega, h2, kinds_ne_EOF.1, by simp [runeCount_runesText]⟩
  · split
    · rename_i hd hl
      have hw : identCond (input.getD p 0) = true := by
        simp only [identCond, Bool.and_eq_true, decide_eq_true_eq, ne_eq, Bool.or_eq_true]
        exact ⟨hc, Or.inl hl⟩
      have h1 := run_pos identCond cond_zero.2.2.2 input p hw
      have h2 := run_le identCond input p (Nat.le_of_lt hp)
      split
      · exact ⟨_, _, rfl, by omega, h2, kinds_ne_EOF.2.2.2.2.2.2.1, by simp [runeCount]⟩
      · split
        · exact ⟨_, _, rfl, by omega, h2, kinds_ne_EOF.2.2.2.2.2.2.2.1, by simp [runeCount]⟩
        · exact ⟨_, _, rfl, by omega, h2, kinds_ne_EOF.2.1, by simp [runeCount_runesText]⟩
    · split
      · exact ⟨_, _, rfl, by omega, by omega, kinds_ne_EOF.2.2.1,
          by simp [runeCount_runeToString]⟩
      · split
        · exact ⟨_, _, rfl, by omega, by omega, kinds_ne_EOF.2.2.2.1, by simp [runeCount]⟩
        · split
          · exact ⟨_, _, rfl, by omega, by omega, kinds_ne_EOF.2.2.2.2.1, by simp [runeCount]⟩
          · split
            · exact ⟨_, _, rfl, by omega, by omega, kinds_ne_EOF.2.2.2.2.2.1,
                by simp [runeCount]⟩
            · exact ⟨_, _, rfl, by omega, by omega, kinds_ne_EOF.2.2.2.2.2.2.2.2,
                by simp [runeCount_runeToString]⟩

/-- What one `getNextToken` call does at an index within the input. -/
theorem getNextToken_step (input : GoString) (p : Nat) (hp : p ≤ input.length) :
    ∃ q tok, (stateAt input p).getNextToken = (tok, stateAt input q) ∧ p ≤ q ∧
      q ≤ input.length ∧
      (tok.Typ = EOF → tok = ⟨EOF, []⟩ ∧ input.getD q 0 = 0) ∧
      (tok.Typ ≠ EOF → p < q ∧ p + runeCount tok.Value ≤ q) := by
  refine getNextToken_induction input
    (fun p r => ∃ q tok, r = (tok, stateAt input q) ∧ p ≤ q ∧ q ≤ input.length ∧
      (tok.Typ = EOF → tok = ⟨EOF, []⟩ ∧ input.getD q 0 = 0) ∧
      (tok.Typ ≠ EOF → p < q ∧ p + runeCount tok.Value ≤ q)) ?_ ?_ ?_ p hp
  · intro p hp h0
    exact ⟨p, _, rfl, Nat.le_refl _, hp, fun _ => ⟨rfl, h0⟩, fun h => absurd rfl h⟩
  · rintro p q r hpq hq _ ⟨q2, tok, rfl, h1, h2, h3, h4⟩
    refine ⟨q2, tok, rfl, by omega, h2, h3, fun h => ?_⟩
    have := h4 h
    omega
  · intro p hp hc _ _
    obtain ⟨q, tok, he, h1, h2, h3, h4⟩ := produceToken_stateAt input p hp hc
    exact ⟨q, tok, he, by omega, h2, fun h => absurd h h3, fun _ => ⟨h1, h4⟩⟩

/-! ## Reachable states and call sequences -/

theorem reachable_stateAt {input : GoString} {l : Lexer} (h : Reachable input l) :
    ∃ p, p ≤ input.length ∧ l = stateAt input p := by
  induction h with
  | init => exact ⟨0, Nat.zero_le _, NewLexer_eq input⟩
  | step _ ih =>
    obtain ⟨p, hp, rfl⟩ := ih
    obtain ⟨q, tok, he, _, hq, _⟩ := getNextToken_step input p hp
    exact ⟨q, hq, by rw [he]⟩

theorem nthCall_eof (input : GoString) (q : Nat) (h0 : input.getD q 0 = 0) (n : Nat) :
    (stateAt input q).nthCall n = (⟨EOF, []⟩, stateAt input q) := by
  have h1 : (stateAt input q).getNextToken = (⟨EOF, []⟩, stateAt input q) := by
    rw [getNextToken_stateAt, stateAt_currentChar, if_pos h0]
  induction n with
  | zero => exact h1
  | succ n ih => rw [Lexer.nthCall, h1]; exact ih

theorem first_eof_within (input : GoString) :
    ∀ (n p : Nat), input.length - p ≤ n → p ≤ input.length →
      ∃ k, k ≤ input.length - p ∧ ((stateAt input p).nthCall k).1.Typ = EOF ∧
        ∀ j, j < k → ((stateAt input p).nthCall j).1.Typ ≠ EOF := by
  intro n
  induction n with
  | zero =>
    intro p hn hp
    refine ⟨0, Nat.zero_le _, ?_, fun j hj => absurd hj (Nat.not_lt_zero j)⟩
    rw [nthCall_eof input p (getD_of_le _ _ (by omega))]
  | succ n ih =>
    intro p hn hp
    obtain ⟨q, tok, he, hpq, hq, h1, h2⟩ := getNextToken_step input p hp
    by_cases ht : tok.Typ = EOF
    · refine ⟨0, Nat.zero_le _, ?_, fun j hj => absurd hj (Nat.not_lt_zero j)⟩
      rw [Lexer.nthCall, he]
      exact ht
    · have hlt := (h2 ht).1
      obtain ⟨k, hk, hk1, hk2⟩ := ih q (by omega) hq
      refine ⟨k + 1, by omega, ?_, ?_⟩
      · rw [Lexer.nthCall, he]
        exact hk1
      · intro j hj
        cases j with
        | zero => rw [Lexer.nthCall, he]; exact ht
        | succ j =>
          rw [Lexer.nthCall, he]
          exact hk2 j (by omega)

theorem tokensLoop_fuel (input : GoString) :
    ∀ (n m p : Nat), p ≤ input.length → input.length - p + 1 ≤ n →
      input.length - p + 1 ≤ m →
      Lexer.tokensLoop n (stateAt input p) = Lexer.tokensLoop m (stateAt input p) := by
  intro n
  induction n with
  | zero => intro m p _ hn _; omega
  | succ n ih =>
    intro m p hp hn hm
    cases m with
    | zero => omega
    | succ m =>
      obtain ⟨q, tok, he, hpq, hq, h1, h2⟩ := getNextToken_step input p hp
      rw [Lexer.tokensLoop, Lexer.tokensLoop]
      simp only [he]
      by_cases ht : tok.Typ = EOF
      · rw [if_pos ht, if_pos ht]
      · have hlt := (h2 ht).1
        rw [if_neg ht, if_neg ht, ih m q hq (by omega) (by omega)]

/-- The token sequence from an index: the token of the next call, followed,
unless it is `EOF`, by the token sequence from the index reached. -/
theorem tokens_stateAt (input : GoString) (p : Nat) (hp : p ≤ input.length) :
    (stateAt input p).tokens =
      if (stateAt input p).getNextToken.1.Typ = EOF then [(stateAt input p).getNextToken.1]
      else (stateAt input p).getNextToken.1 :: (stateAt input p).getNextToken.2.tokens := by
  obtain ⟨q, tok, he, hpq, hq, h1, h2⟩ := getNextToken_step input p hp
  rw [Lexer.tokens, stateAt_input, Lexer.tokensLoop]
  simp only [he]
  by_cases ht : tok.Typ = EOF
  · rw [if_pos ht, if_pos ht]
  · have hlt := (h2 ht).1
    rw [if_neg ht, if_neg ht, Lexer.tokens, stateAt_input,
      tokensLoop_fuel input input.length (input.length + 1) q hq (by omega) (by omega)]

/-! ## Claims -/

/-- C1 (totality with bound): for every input of `N` bytes, one of the first
`N + 1` calls of `getNextToken` on `NewLexer(input)` returns an `EOF` token;
the first such call is preceded by at most `N` calls, none of which returns
`EOF`. -/
theorem C1_eof_within_length_plus_one_calls (input : GoString) :
    ∃ k, k ≤ input.length ∧ ((NewLexer input).nthCall k).1.Typ = EOF ∧
      ∀ j, j < k → ((NewLexer input).nthCall j).1.Typ ≠ EOF := by
  rw [NewLexer_eq]
  obtain ⟨k, hk, h1, h2⟩ := first_eof_within input input.length 0 (by omega) (Nat.zero_le _)
  exact ⟨k, by omega, h1, h2⟩

/-- C2 (progress): in every state reachable from `NewLexer(input)`, a call of
`getNextToken` never moves the cursor backwards, and if the token returned is
not `EOF` the cursor moves strictly forward, by at least the number of code
points of the token's `Value`. -/
theorem C2_progress (input : GoString) (l : Lexer) (h : Reachable input l) :
    l.position ≤ l.getNextToken.2.position ∧
      (l.getNextToken.1.Typ ≠ EOF →
        l.position < l.getNextToken.2.position ∧
        l.position + runeCount l.getNextToken.1.Value ≤ l.getNextToken.2.position) := by
  obtain ⟨p, hp, rfl⟩ := reachable_stateAt h
  obtain ⟨q, tok, he, hpq, hq, h1, h2⟩ := getNextToken_step input p hp
  rw [he]
  exact ⟨hpq, h2⟩

/-- Witness of C2: the second call on the input `ab+1` (an identifier, then an
operator). -/
theorem C2_progress_witness :
    Reachable (lit "ab+1") (NewLexer (lit "ab+1")).getNextToken.2 ∧
    (NewLexer (lit "ab+1")).getNextToken.2.getNextToken.1.Typ ≠ EOF ∧
    (NewLexer (lit "ab+1")).getNextToken.2.position <
      (NewLexer (lit "ab+1")).getNextToken.2.getNextToken.2.position :=
  ⟨Reachable.step Reachable.init, by decide,
    ((C2_progress (lit "ab+1") _ (Reachable.step Reachable.init)).2 (by decide)).1⟩

/-- C3 (idempotent EOF): once a call in a reachable state has returned
`Token{EOF, ""}`, every later call returns `Token{EOF, ""}` and leaves the
lexer (input, position, currentChar) unchanged; and on the empty input the
first and every later call returns `Token{EOF, ""}`. -/
theorem C3_idempotent_eof (input : GoString) (l : Lexer) (h : Reachable input l)
    (heof : l.getNextToken.1 = ⟨EOF, []⟩) :
    (∀ n, l.getNextToken.2.nthCall n = (⟨EOF, []⟩, l.getNextToken.2)) ∧
      (∀ n, ((NewLexer []).nthCall n).1 = ⟨EOF, []⟩) := by
  obtain ⟨p, hp, rfl⟩ := reachable_stateAt h
  obtain ⟨q, tok, he, hpq, hq, h1, h2⟩ := getNextToken_step input p hp
  rw [he] at heof ⊢
  constructor
  · intro n
    exact nthCall_eof input q (h1 (congrArg Token.Typ heof)).2 n
  · intro n
    rw [NewLexer_eq, nthCall_eof [] 0 rfl n]

/-- Witness of C3: the input of two spaces, whose first call skips them and
returns `EOF`. -/
theorem C3_idempotent_eof_witness :
    Reachable (lit "  ") (NewLexer (lit "  ")) ∧
    (NewLexer (lit "  ")).getNextToken.1 = ⟨EOF, []⟩ ∧
    (NewLexer (lit "  ")).getNextToken.2.nthCall 5 =
      (⟨EOF, []⟩, (NewLexer (lit "  ")).getNextToken.2) :=
  ⟨Reachable.init, by decide,
    (C3_idempotent_eof (lit "  ") _ Reachable.init (by decide)).1 5⟩

/-! ## Inputs consisting of one number or one word -/

theorem asciiDigit_facts : ∀ c : Byte, isAsciiDigit c = true →
    c ≠ 0 ∧ isSpace c = false ∧ c ≠ 47 ∧ isDigit c = true ∧ numCond c = true ∧
      identCond c = true ∧ c.val < 128 := by decide

theorem asciiLetter_facts : ∀ c : Byte, isAsciiLetter c = true →
    c ≠ 0 ∧ isSpace c = false ∧ c ≠ 47 ∧ isDigit c = false ∧ isLetter c = true ∧
      identCond c = true ∧ c.val < 128 := by decide

theorem runesText_ascii (s : GoString) (h : ∀ c ∈ s, c.val < 128) : runesText s = s := by
  induction s with
  | nil => rfl
  | cons x xs ih =>
    have hx := runeToString_ascii x (h x (List.mem_cons_self _ _))
    have hxs := ih (fun c hc => h c (List.mem_cons_of_mem _ hc))
    unfold runesText at hxs ⊢
    simp [hx, hxs]

theorem toLower_ascii (s : GoString) (h : ∀ c ∈ s, c.val < 128) :
    toLower s = s.map lowerByte := by
  induction s with
  | nil => rfl
  | cons x xs ih =>
    cases xs with
    | nil => rfl
    | cons y ys =>
      have hx : x ≠ 0xC3 := by
        intro he
        have := h x (List.mem_cons_self _ _)
        rw [he] at this
        exact absurd this (by decide)
      have hxs := ih (fun c hc => h c (List.mem_cons_of_mem _ hc))
      rw [toLower, if_neg (fun hh => hx hh.1), hxs]
      rfl

/-- If the first call consumes the whole non-empty input and returns a token
other than `EOF`, the token sequence is that token followed by `EOF`. -/
theorem tokenize_single (s : GoString) (tok : Token)
    (he : (stateAt s 0).getNextToken = (tok, stateAt s s.length)) (ht : tok.Typ ≠ EOF) :
    tokenize s = [tok, ⟨EOF, []⟩] := by
  have h2 : (stateAt s s.length).getNextToken = (⟨EOF, []⟩, stateAt s s.length) := by
    rw [getNextToken_stateAt, stateAt_currentChar, if_pos (getD_of_le _ _ (Nat.le_refl _))]
  rw [tokenize, NewLexer_eq, tokens_stateAt s 0 (Nat.zero_le _), he]
  simp only [if_neg ht]
  rw [tokens_stateAt s s.length (Nat.le_refl _), h2]
  simp

/-- At a byte that is neither NUL, nor white space, nor `/`, the call goes
straight to the token-producing part of the body. -/
theorem getNextToken_plain (input : GoString) (p : Nat) (h0 : input.getD p 0 ≠ 0)
    (hs : isSpace (input.getD p 0) = false) (h47 : input.getD p 0 ≠ 47) :
    (stateAt input p).getNextToken = (stateAt input p).produceToken := by
  rw [getNextToken_stateAt, stateAt_currentChar, if_neg h0, if_neg (by rw [hs]; exact Bool.false_ne_true),
    if_neg (fun hh => h47 hh.1)]

theorem number_input (c : Byte) (cs : GoString) (h : ∀ d ∈ c :: cs, isAsciiDigit d = true) :
    (stateAt (c :: cs) 0).getNextToken =
      (⟨NUMBER, c :: cs⟩, stateAt (c :: cs) (c :: cs).length) := by
  have hc := asciiDigit_facts c (h c (List.mem_cons_self _ _))
  have hrun : ((c :: cs).drop 0).takeWhile numCond = c :: cs := by
    rw [List.drop_zero, List.takeWhile_eq_self_iff]
    exact fun d hd => (asciiDigit_facts d (h d hd)).2.2.2.2.1
  have h0 : (c :: cs).getD 0 0 = c := rfl
  rw [getNextToken_plain _ _ (by rw [h0]; exact hc.1) (by rw [h0]; exact hc.2.1)
    (by rw [h0]; exact hc.2.2.1), Lexer.produceToken, stateAt_currentChar, h0,
    if_pos hc.2.2.2.1, readNumber_stateAt, hrun,
    runesText_ascii _ (fun d hd => (asciiDigit_facts d (h d hd)).2.2.2.2.2.2)]
  simp

theorem word_facts (c : Byte) (cs : GoString)
    (h : ∀ d ∈ c :: cs, isAsciiLetter d = true ∨ isAsciiDigit d = true) :
    (∀ d ∈ c :: cs, d.val < 128) ∧ (∀ d ∈ c :: cs, identCond d = true) := by
  constructor
  · intro d hd
    rcases h d hd with h1 | h1
    · exact (asciiLetter_facts d h1).2.2.2.2.2.2
    · exact (asciiDigit_facts d h1).2.2.2.2.2.2
  · intro d hd
    rcases h d hd with h1 | h1
    · exact (asciiLetter_facts d h1).2.2.2.2.2.1
    · exact (asciiDigit_facts d h1).2.2.2.2.2.1

theorem word_input (c : Byte) (cs : GoString) (hc : isAsciiLetter c = true)
    (h : ∀ d ∈ c :: cs, isAsciiLetter d = true ∨ isAsciiDigit d = true) :
    (stateAt (c :: cs) 0).getNextToken =
      if (c :: cs).map lowerByte = lit "div" then
        (⟨DIV, []⟩, stateAt (c :: cs) (c :: cs).length)
      else if (c :: cs).map lowerByte = lit "mod" then
        (⟨MOD, []⟩, stateAt (c :: cs) (c :: cs).length)
      else (⟨ID, c :: cs⟩, stateAt (c :: cs) (c :: cs).length) := by
  have hf := asciiLetter_facts c hc
  obtain ⟨hascii, hid⟩ := word_facts c cs h
  have hrun : ((c :: cs).drop 0).takeWhile identCond = c :: cs := by
    rw [List.drop_zero, List.takeWhile_eq_self_iff]
    exact hid
  have h0 : (c :: cs).getD 0 0 = c := rfl
  rw [getNextToken_plain _ _ (by rw [h0]; exact hf.1) (by rw [h0]; exact hf.2.1)
    (by rw [h0]; exact hf.2.2.1), Lexer.produceToken, stateAt_currentChar, h0,
    if_neg (by simp [hf.2.2.2.1]), if_pos hf.2.2.2.2.1, readIdentifier_stateAt, hrun,
    runesText_ascii _ hascii]
  simp only [toLower_ascii _ hascii, Nat.zero_add]

theorem kinds_distinct : DIV ≠ MOD ∧ DIV ≠ ID ∧ MOD ≠ ID ∧ lit "div" ≠ lit "mod" ∧
    (lit "div").map lowerByte = lit "div" ∧ (lit "mod").map lowerByte = lit "mod" := by decide

theorem lowerByte_eq_iff : ∀ b : Byte,
    (lowerByte b = 100 ↔ b = 100 ∨ b = 68) ∧ (lowerByte b = 105 ↔ b = 105 ∨ b = 73) ∧
    (lowerByte b = 118 ↔ b = 118 ∨ b = 86) ∧ (lowerByte b = 109 ↔ b = 109 ∨ b = 77) ∧
    (lowerByte b = 111 ↔ b = 111 ∨ b = 79) := by decide

/-- Equality with `div` ignoring ASCII case holds for its eight casings and for
nothing else. -/
theorem equalFoldASCII_div_iff (s : GoString) :
    equalFoldASCII s (lit "div") ↔
      s ∈ [lit "div", lit "diV", lit "dIv", lit "dIV", lit "Div", lit "DiV", lit "DIv",
        lit "DIV"] := by
  constructor
  · intro h
    unfold equalFoldASCII at h
    rw [kinds_distinct.2.2.2.2.1, show lit "div" = [100, 105, 118] by decide] at h
    rcases s with _ | ⟨x, _ | ⟨y, _ | ⟨z, _ | ⟨w, t⟩⟩⟩⟩
    · exact absurd h (by simp)
    · exact absurd h (by simp)
    · exact absurd h (by simp)
    · simp only [List.map_cons, List.map_nil, List.cons.injEq, and_true] at h
      obtain ⟨hx, hy, hz⟩ := h
      rcases (lowerByte_eq_iff x).1.mp hx with rfl | rfl <;>
      rcases (lowerByte_eq_iff y).2.1.mp hy with rfl | rfl <;>
      rcases (lowerByte_eq_iff z).2.2.1.mp hz with rfl | rfl <;> decide
    · exact absurd h (by simp)
  · intro h
    simp only [List.mem_cons, List.mem_singleton, List.not_mem_nil, or_false] at h
    rcases h with rfl | rfl | rfl | rfl | rfl | rfl | rfl | rfl <;> decide

/-- Equality with `mod` ignoring ASCII case holds for its eight casings and for
nothing else. -/
theorem equalFoldASCII_mod_iff (s : GoString) :
    equalFoldASCII s (lit "mod") ↔
      s ∈ [lit "mod", lit "moD", lit "mOd", lit "mOD", lit "Mod", lit "MoD", lit "MOd",
        lit "MOD"] := by
  constructor
  · intro h
    unfold equalFoldASCII at h
    rw [kinds_distinct.2.2.2.2.2, show lit "mod" = [109, 111, 100] by decide] at h
    rcases s with _ | ⟨x, _ | ⟨y, _ | ⟨z, _ | ⟨w, t⟩⟩⟩⟩
    · exact absurd h (by simp)
    · exact absurd h (by simp)
    · exact absurd h (by simp)
    · simp only [List.map_cons, List.map_nil, List.cons.injEq, and_true] at h
      obtain ⟨hx, hy, hz⟩ := h
      rcases (lowerByte_eq_iff x).2.2.2.1.mp hx with rfl | rfl <;>
      rcases (lowerByte_eq_iff y).2.2.2.2.mp hy with rfl | rfl <;>
      rcases (lowerByte_eq_iff z).1.mp hz with rfl | rfl <;> decide
    · exact absurd h (by simp)
  · intro h
    simp only [List.mem_cons, List.mem_singleton, List.not_mem_nil, or_false] at h
    rcases h with rfl | rfl | rfl | rfl | rfl | rfl | rfl | rfl <;> decide


/-- C4 (round trip on numbers): for every non-empty string `s` of ASCII digits
the token sequence of `NewLexer(s)` is `Token{NUM, s}` followed by
`Token{EOF, ""}`. -/
theorem C4_number_round_trip (s : GoString) (hne : s ≠ [])
    (hdig : ∀ c ∈ s, isAsciiDigit c = true) :
    tokenize s = [⟨NUMBER, s⟩, ⟨EOF, []⟩] := by
  cases s with
  | nil => exact absurd rfl hne
  | cons c cs => exact tokenize_single _ _ (number_input c cs hdig) kinds_ne_EOF.1

/-- Witness of C4: the digit string `007`. -/
theorem C4_number_round_trip_witness :
    lit "007" ≠ [] ∧ (∀ c ∈ lit "007", isAsciiDigit c = true) ∧
    tokenize (lit "007") = [⟨NUMBER, lit "007"⟩, ⟨EOF, []⟩] :=
  ⟨by decide, by decide, C4_number_round_trip (lit "007") (by decide) (by decide)⟩

/-- C5 (keyword case-insensitivity): for every string `s` that starts with an
ASCII letter and consists of ASCII letters and digits, the first token of
`NewLexer(s)` is `Token{DIV, ""}` exactly when `s` equals `div` ignoring ASCII
case, and `Token{MOD, ""}` exactly when `s` equals `mod` ignoring ASCII case;
in both cases the token sequence ends there, with `EOF` as the next token.
By `equalFoldASCII_div_iff` and `equalFoldASCII_mod_iff`, equality ignoring
ASCII case means being one of the eight casings of the keyword. -/
theorem C5_keywords_ignore_case (s : GoString)
    (hfirst : ∃ c cs, s = c :: cs ∧ isAsciiLetter c = true)
    (hall : ∀ c ∈ s, isAsciiLetter c = true ∨ isAsciiDigit c = true) :
    ((NewLexer s).getNextToken.1 = ⟨DIV, []⟩ ↔ equalFoldASCII s (lit "div")) ∧
    ((NewLexer s).getNextToken.1 = ⟨MOD, []⟩ ↔ equalFoldASCII s (lit "mod")) ∧
    (equalFoldASCII s (lit "div") → tokenize s = [⟨DIV, []⟩, ⟨EOF, []⟩]) ∧
    (equalFoldASCII s (lit "mod") → tokenize s = [⟨MOD, []⟩, ⟨EOF, []⟩]) := by
  obtain ⟨c, cs, rfl, hc⟩ := hfirst
  have hw := word_input c cs hc hall
  obtain ⟨hdm, hdi, hmi, hlit, hld, hlm⟩ := kinds_distinct
  unfold equalFoldASCII
  rw [hld, hlm, NewLexer_eq]
  by_cases hd : (c :: cs).map lowerByte = lit "div"
  · rw [if_pos hd] at hw
    have hm : (c :: cs).map lowerByte ≠ lit "mod" := fun hm => hlit (hd.symm.trans hm)
    refine ⟨?_, ?_, fun _ => tokenize_single _ _ hw kinds_ne_EOF.2.2.2.2.2.2.1,
      fun h => absurd h hm⟩
    · rw [hw]
      exact ⟨fun _ => hd, fun _ => rfl⟩
    · rw [hw]
      exact ⟨fun h => absurd (congrArg Token.Typ h) hdm, fun h => absurd h hm⟩
  · rw [if_neg hd] at hw
    by_cases hm : (c :: cs).map lowerByte = lit "mod"
    · rw [if_pos hm] at hw
      refine ⟨?_, ?_, fun h => absurd h hd,
        fun _ => tokenize_single _ _ hw kinds_ne_EOF.2.2.2.2.2.2.2.1⟩
      · rw [hw]
        exact ⟨fun h => absurd (congrArg Token.Typ h) hdm.symm, fun h => absurd h hd⟩
      · rw [hw]
        exact ⟨fun _ => hm, fun _ => rfl⟩
    · rw [if_neg hm] at hw
      refine ⟨?_, ?_, fun h => absurd h hd, fun h => absurd h hm⟩
      · rw [hw]
        exact ⟨fun h => absurd (congrArg Token.Typ h) hdi.symm, fun h => absurd h hd⟩
      · rw [hw]
        exact ⟨fun h => absurd (congrArg Token.Typ h) hmi.symm, fun h => absurd h hm⟩

/-- Witness of C5: the spelling `DiV`. -/
theorem C5_keywords_ignore_case_witness :
    (∃ c cs, lit "DiV" = c :: cs ∧ isAsciiLetter c = true) ∧
    (∀ c ∈ lit "DiV", isAsciiLetter c = true ∨ isAsciiDigit c = true) ∧
    equalFoldASCII (lit "DiV") (lit "div") ∧
    (NewLexer (lit "DiV")).getNextToken.1 = ⟨DIV, []⟩ :=
  ⟨⟨68, [105, 86], by decide, by decide⟩, by decide, by decide,
    (C5_keywords_ignore_case (lit "DiV") ⟨68, [105, 86], by decide, by decide⟩
      (by decide)).1.mpr (by decide)⟩

/-- C6 (identifier text is preserved): for every string `s` that starts with
an ASCII letter, consists of ASCII letters and digits, and equals neither `div`
nor `mod` ignoring ASCII case, the token sequence of `NewLexer(s)` is
`Token{ID, s}`, with `s` in its original casing, followed by `EOF`. -/
theorem C6_identifier_text_preserved (s : GoString)
    (hfirst : ∃ c cs, s = c :: cs ∧ isAsciiLetter c = true)
    (hall : ∀ c ∈ s, isAsciiLetter c = true ∨ isAsciiDigit c = true)
    (hdiv : ¬ equalFoldASCII s (lit "div")) (hmod : ¬ equalFoldASCII s (lit "mod")) :
    tokenize s = [⟨ID, s⟩, ⟨EOF, []⟩] := by
  obtain ⟨c, cs, rfl, hc⟩ := hfirst
  have hw := word_input c cs hc hall
  obtain ⟨_, _, _, _, hld, hlm⟩ := kinds_distinct
  unfold equalFoldASCII at hdiv hmod
  rw [hld] at hdiv
  rw [hlm] at hmod
  rw [if_neg hdiv, if_neg hmod] at hw
  exact tokenize_single _ _ hw kinds_ne_EOF.2.1

/-- Witness of C6: `Divx`, of which the keyword `div` is only a beginning. -/
theorem C6_identifier_text_preserved_witness :
    (∃ c cs, lit "Divx" = c :: cs ∧ isAsciiLetter c = true) ∧
    (∀ c ∈ lit "Divx", isAsciiLetter c = true ∨ isAsciiDigit c = true) ∧
    ¬ equalFoldASCII (lit "Divx") (lit "div") ∧ ¬ equalFoldASCII (lit "Divx") (lit "mod") ∧
    tokenize (lit "Divx") = [⟨ID, lit "Divx"⟩, ⟨EOF, []⟩] :=
  ⟨⟨68, [105, 118, 120], by decide, by decide⟩, by decide, by decide, by decide,
    C6_identifier_text_preserved (lit "Divx") ⟨68, [105, 118, 120], by decide, by decide⟩
      (by decide) (by decide) (by decide)⟩

/-! ## Single-character tokens -/

/-- C8 (invalid-character recovery): in every reachable state whose current
character `c` is not NUL, not white space, not a digit, not a letter and none of
`+ - * / ( ) ;`, `getNextToken` returns `Token{INVALID, string(c)}`, a text of
one code point, and leaves the lexer advanced by exactly one position, so the
next call scans the rest of the input; and `1 @ 2` yields `NUM 1`, `INVALID @`,
`NUM 2`, `EOF`. -/
theorem C8_invalid_character_recovery (input : GoString) (l : Lexer)
    (h : Reachable input l) (h0 : l.currentChar ≠ 0) (hs : isSpace l.currentChar = false)
    (hd : isDigit l.currentChar = false) (hl : isLetter l.currentChar = false)
    (hop : l.currentChar ≠ 43 ∧ l.currentChar ≠ 45 ∧ l.currentChar ≠ 42 ∧
      l.currentChar ≠ 47 ∧ l.currentChar ≠ 40 ∧ l.currentChar ≠ 41 ∧ l.currentChar ≠ 59) :
    l.getNextToken = (⟨INVALID, runeToString l.currentChar⟩, l.advance) ∧
      runeCount (runeToString l.currentChar) = 1 ∧
      l.getNextToken.2.position = l.position + 1 ∧
      l.getNextToken.2.input = l.input ∧
      tokenize (lit "1 @ 2") =
        [⟨NUMBER, lit "1"⟩, ⟨INVALID, lit "@"⟩, ⟨NUMBER, lit "2"⟩, ⟨EOF, []⟩] := by
  obtain ⟨p, hp, rfl⟩ := reachable_stateAt h
  obtain ⟨h43, h45, h42, h47, h40, h41, h59⟩ := hop
  have he : (stateAt input p).getNextToken =
      (⟨INVALID, runeToString (stateAt input p).currentChar⟩, (stateAt input p).advance) := by
    rw [getNextToken_plain input p h0 hs h47, Lexer.produceToken,
      if_neg (by rw [hd]; exact Bool.false_ne_true),
      if_neg (by rw [hl]; exact Bool.false_ne_true),
      if_neg (by rintro (h | h | h | h) <;> contradiction),
      if_neg h40, if_neg h41, if_neg h59]
  refine ⟨he, runeCount_runeToString _, ?_, ?_, by decide⟩
  · rw [he, advance_stateAt]; rfl
  · rw [he, advance_stateAt]; rfl

/-- Witness of C8: the state reached on `1@2` after the first call, where `@`
is the current character. -/
theorem C8_invalid_character_recovery_witness :
    Reachable (lit "1@2") (NewLexer (lit "1@2")).getNextToken.2 ∧
    (NewLexer (lit "1@2")).getNextToken.2.getNextToken =
      (⟨INVALID, lit "@"⟩, (NewLexer (lit "1@2")).getNextToken.2.advance) :=
  ⟨Reachable.step Reachable.init,
    (C8_invalid_character_recovery (lit "1@2") _ (Reachable.step Reachable.init) (by decide)
      (by decide) (by decide) (by decide) (by decide)).1⟩

/-- C9 (operator and punctuation literalness): in every reachable state with
current character `c`, `getNextToken` returns `Token{OP, "+"}`, `Token{OP, "-"}`,
`Token{OP, "*"}` for `c` = `+`, `-`, `*`, `Token{LPAR, ""}` for `(`,
`Token{RPAR, ""}` for `)` and `Token{SEMICOLON, ""}` for `;`, each time leaving
the lexer advanced by exactly one position; and `(1+2)*3;` yields `LPAR`,
`NUM 1`, `OP +`, `NUM 2`, `RPAR`, `OP *`, `NUM 3`, `SEMICOLON`, `EOF`. -/
theorem C9_operators_and_punctuation (input : GoString) (l : Lexer) (h : Reachable input l) :
    (l.currentChar = 43 → l.getNextToken = (⟨OP, lit "+"⟩, l.advance)) ∧
    (l.currentChar = 45 → l.getNextToken = (⟨OP, lit "-"⟩, l.advance)) ∧
    (l.currentChar = 42 → l.getNextToken = (⟨OP, lit "*"⟩, l.advance)) ∧
    (l.currentChar = 40 → l.getNextToken = (⟨LPAR, []⟩, l.advance)) ∧
    (l.currentChar = 41 → l.getNextToken = (⟨RPAR, []⟩, l.advance)) ∧
    (l.currentChar = 59 → l.getNextToken = (⟨SEMICOLON, []⟩, l.advance)) ∧
    l.advance.position = l.position + 1 ∧ l.advance.input = l.input ∧
    tokenize (lit "(1+2)*3;") =
      [⟨LPAR, []⟩, ⟨NUMBER, lit "1"⟩, ⟨OP, lit "+"⟩, ⟨NUMBER, lit "2"⟩, ⟨RPAR, []⟩,
       ⟨OP, lit "*"⟩, ⟨NUMBER, lit "3"⟩, ⟨SEMICOLON, []⟩, ⟨EOF, []⟩] := by
  obtain ⟨p, hp, rfl⟩ := reachable_stateAt h
  have key : ∀ c : Byte, (stateAt input p).currentChar = c → c ≠ 0 → isSpace c = false →
      c ≠ 47 → (stateAt input p).getNextToken = (stateAt input p).produceToken := by
    intro c hc h0 hs h47
    exact getNextToken_plain input p (by rw [← stateAt_currentChar, hc]; exact h0)
      (by rw [← stateAt_currentChar, hc]; exact hs) (by rw [← stateAt_currentChar, hc]; exact h47)
  refine ⟨?_, ?_, ?_, ?_, ?_, ?_, ?_, ?_, by decide⟩
  · intro hc
    rw [key 43 hc (by decide) (by decide) (by decide), Lexer.produceToken, hc]
    rfl
  · intro hc
    rw [key 45 hc (by decide) (by decide) (by decide), Lexer.produceToken, hc]
    rfl
  · intro hc
    rw [key 42 hc (by decide) (by decide) (by decide), Lexer.produceToken, hc]
    rfl
  · intro hc
    rw [key 40 hc (by decide) (by decide) (by decide), Lexer.produceToken, hc]
    rfl
  · intro hc
    rw [key 41 hc (by decide) (by decide) (by decide), Lexer.produceToken, hc]
    rfl
  · intro hc
    rw [key 59 hc (by decide) (by decide) (by decide), Lexer.produceToken, hc]
    rfl
  · rw [advance_stateAt]; rfl
  · rw [advance_stateAt]; rfl

/-- Witness of C9: the state reached on `(1+2)*3;` after two calls, where `+`
is the current character. -/
theorem C9_operators_and_punctuation_witness :
    Reachable (lit "(1+2)*3;") (NewLexer (lit "(1+2)*3;")).getNextToken.2.getNextToken.2 ∧
    (NewLexer (lit "(1+2)*3;")).getNextToken.2.getNextToken.2.getNextToken =
      (⟨OP, lit "+"⟩, (NewLexer (lit "(1+2)*3;")).getNextToken.2.getNextToken.2.advance) :=
  ⟨Reachable.step (Reachable.step Reachable.init),
    (C9_operators_and_punctuation (lit "(1+2)*3;") _
      (Reachable.step (Reachable.step Reachable.init))).1 (by decide)⟩

/-- When a call in a reachable state returns `EOF`, the cursor is at the end of
the input or at a NUL byte. -/
theorem eof_at_end_or_nul (input : GoString) (l : Lexer) (h : Reachable input l)
    (heof : l.getNextToken.1.Typ = EOF) :
    l.getNextToken.2.position = input.length ∨
      input.getD l.getNextToken.2.position 1 = 0 := by
  obtain ⟨p, hp, rfl⟩ := reachable_stateAt h
  obtain ⟨q, tok, he, _, hq, h1, _⟩ := getNextToken_step input p hp
  rw [he] at heof ⊢
  have h0 := (h1 heof).2
  by_cases hlt : q < input.length
  · right
    rw [getD_of_lt _ _ hlt] at h0
    show input.getD q 1 = 0
    rw [List.getD_eq_getElem _ _ hlt]
    exact h0
  · left
    exact Nat.le_antisymm hq (Nat.le_of_not_lt hlt)

/-- C10, evaluated on the three bytes `1`, NUL, `2`: the first call returns
`NUM 1`; the second call, made in a reachable state, returns `EOF` with the
cursor at position 1 of 3, the bytes NUL and `2` unconsumed, and so does every
later call. -/
theorem C10_eof_before_end_of_input :
    Reachable [49, 0, 50] (NewLexer [49, 0, 50]).getNextToken.2 ∧
    (NewLexer [49, 0, 50]).getNextToken.1 = ⟨NUMBER, lit "1"⟩ ∧
    (NewLexer [49, 0, 50]).getNextToken.2.getNextToken.1 = ⟨EOF, []⟩ ∧
    (NewLexer [49, 0, 50]).getNextToken.2.getNextToken.2.position = 1 ∧
    ([49, 0, 50] : GoString).length = 3 ∧
    tokenize [49, 0, 50] = [⟨NUMBER, lit "1"⟩, ⟨EOF, []⟩] :=
  ⟨Reachable.step Reachable.init, by decide, by decide, by decide, by decide, by decide⟩

/-! ## The result of a call depends only on the unconsumed input -/

theorem drop_length_takeWhile (cond : Byte → Bool) (s : GoString) :
    s.drop (s.takeWhile cond).length = s.dropWhile cond := by
  induction s with
  | nil => rfl
  | cons x xs ih =>
    by_cases h : cond x = true
    · rw [List.takeWhile_cons_of_pos h, List.dropWhile_cons_of_pos h]
      simpa using ih
    · rw [List.takeWhile_cons_of_neg h, List.dropWhile_cons_of_neg h]
      rfl

theorem drop_add (input : GoString) (p k : Nat) :
    input.drop (p + k) = (input.drop p).drop k := by
  rw [List.drop_drop]

theorem produceToken_suffix (input : GoString) (p : Nat) :
    (stateAt input p).produceToken =
      ((suffixToken (input.drop p)).1, stateAt input (p + (suffixToken (input.drop p)).2)) := by
  unfold Lexer.produceToken suffixToken
  simp only [stateAt_currentChar, getD_eq_headD_drop, readNumber_stateAt,
    readIdentifier_stateAt, advance_stateAt]
  split_ifs <;> rfl

theorem skipComment_suffix (input : GoString) (p : Nat) :
    (stateAt input p).skipComment = stateAt input (p + commentLen (input.drop p)) := by
  have h1 : (input.drop p).drop 2 = input.drop (p + 2) := (drop_add input p 2).symm
  have h2 : input.getD (p + 2 + ((input.drop (p + 2)).takeWhile commentCond).length) 0 =
      ((input.drop (p + 2)).dropWhile commentCond).headD 0 := by
    rw [getD_eq_headD_drop, drop_add input (p + 2), drop_length_takeWhile]
  rw [skipComment_stateAt, commentLen, h1, h2]
  split
  · exact congrArg (stateAt input) (by omega)
  · exact congrArg (stateAt input) (by omega)

/-- The defining equation of `getNextToken` in terms of the unconsumed input
`input[p:]`. -/
theorem getNextToken_suffix_form (input : GoString) (p : Nat) :
    (stateAt input p).getNextToken =
      if (input.drop p).headD 0 = 0 then (⟨EOF, []⟩, stateAt input p)
      else if isSpace ((input.drop p).headD 0) then
        (stateAt input (p + ((input.drop p).takeWhile wsCond).length)).getNextToken
      else if (input.drop p).headD 0 = 47 ∧ ((input.drop p).drop 1).headD 0 = 47 then
        (stateAt input (p + commentLen (input.drop p))).getNextToken
      else ((suffixToken (input.drop p)).1,
        stateAt input (p + (suffixToken (input.drop p)).2)) := by
  rw [getNextToken_stateAt, skipWhitespace_stateAt, skipComment_suffix, produceToken_suffix,
    peek_stateAt, stateAt_currentChar, getD_eq_headD_drop input p,
    getD_eq_headD_drop input (p + 1), drop_add input p 1]

theorem headD_ne_zero_lt (input : GoString) (p : Nat) (h : (input.drop p).headD 0 ≠ 0) :
    p < input.length := by
  by_contra hn
  rw [List.drop_eq_nil_of_le (Nat.le_of_not_lt hn)] at h
  exact h rfl

theorem commentLen_ge (s : GoString) : 2 ≤ commentLen s := by
  unfold commentLen
  split <;> omega

/-- Two states with the same unconsumed input return the same token and
consume the same number of bytes. -/
theorem getNextToken_suffix :
    ∀ (n : Nat) (inp1 : GoString) (p1 : Nat) (inp2 : GoString) (p2 : Nat),
      inp1.length - p1 ≤ n → inp1.drop p1 = inp2.drop p2 →
      ∃ tok k, (stateAt inp1 p1).getNextToken = (tok, stateAt inp1 (p1 + k)) ∧
        (stateAt inp2 p2).getNextToken = (tok, stateAt inp2 (p2 + k)) := by
  intro n
  induction n with
  | zero =>
    intro inp1 p1 inp2 p2 hn hs
    have h0 : (inp1.drop p1).headD 0 = 0 := by
      rw [List.drop_eq_nil_of_le (by omega)]; rfl
    refine ⟨⟨EOF, []⟩, 0, ?_, ?_⟩
    · rw [getNextToken_suffix_form, if_pos h0]; rfl
    · rw [getNextToken_suffix_form, ← hs, if_pos h0]; rfl
  | succ n ih =>
    intro inp1 p1 inp2 p2 hn hs
    rw [getNextToken_suffix_form inp1, getNextToken_suffix_form inp2, ← hs]
    by_cases h0 : (inp1.drop p1).headD 0 = 0
    · exact ⟨⟨EOF, []⟩, 0, by rw [if_pos h0]; rfl, by rw [if_pos h0]; rfl⟩
    · have hlt := headD_ne_zero_lt inp1 p1 h0
      rw [if_neg h0, if_neg h0]
      by_cases hsp : isSpace ((inp1.drop p1).headD 0) = true
      · rw [if_pos hsp, if_pos hsp]
        have hw : wsCond (inp1.getD p1 0) = true := by
          rw [getD_eq_headD_drop]
          simp only [wsCond, Bool.and_eq_true, decide_eq_true_eq, ne_eq]
          exact ⟨h0, hsp⟩
        have hpos := (run_pos wsCond cond_zero.1 inp1 p1 hw).2
        obtain ⟨tok, k, e1, e2⟩ := ih inp1 (p1 + ((inp1.drop p1).takeWhile wsCond).length)
          inp2 (p2 + ((inp1.drop p1).takeWhile wsCond).length) (by omega)
          (by rw [drop_add, drop_add inp2, hs])
        exact ⟨tok, ((inp1.drop p1).takeWhile wsCond).length + k,
          by rw [e1, Nat.add_assoc], by rw [e2, Nat.add_assoc]⟩
      · rw [if_neg hsp, if_neg hsp]
        by_cases hcm : (inp1.drop p1).headD 0 = 47 ∧ ((inp1.drop p1).drop 1).headD 0 = 47
        · rw [if_pos hcm, if_pos hcm]
          have hge := commentLen_ge (inp1.drop p1)
          obtain ⟨tok, k, e1, e2⟩ := ih inp1 (p1 + commentLen (inp1.drop p1))
            inp2 (p2 + commentLen (inp1.drop p1)) (by omega)
            (by rw [drop_add, drop_add inp2, hs])
          exact ⟨tok, commentLen (inp1.drop p1) + k,
            by rw [e1, Nat.add_assoc], by rw [e2, Nat.add_assoc]⟩
        · rw [if_neg hcm, if_neg hcm]
          exact ⟨_, _, rfl, rfl⟩

theorem stateAt_pos_inj {input : GoString} {p q : Nat} (h : stateAt input p = stateAt input q) :
    p = q := congrArg Lexer.position h

/-- Two states with the same unconsumed input have the same token sequence. -/
theorem tokens_suffix :
    ∀ (n : Nat) (inp1 : GoString) (p1 : Nat) (inp2 : GoString) (p2 : Nat),
      inp1.length - p1 ≤ n → p1 ≤ inp1.length → p2 ≤ inp2.length →
      inp1.drop p1 = inp2.drop p2 →
      (stateAt inp1 p1).tokens = (stateAt inp2 p2).tokens := by
  intro n
  induction n with
  | zero =>
    intro inp1 p1 inp2 p2 hn h1 h2 hs
    obtain ⟨tok, k, e1, e2⟩ := getNextToken_suffix 0 inp1 p1 inp2 p2 hn hs
    obtain ⟨q, tok2, e3, _, hq, _, hprog⟩ := getNextToken_step inp1 p1 h1
    rw [e1] at e3
    have htk : tok = tok2 := (Prod.mk.inj e3).1
    subst htk
    have ht : tok.Typ = EOF := by
      by_contra hne
      have hk : p1 + k = q := stateAt_pos_inj (congrArg Prod.snd e3)
      have := (hprog hne).1
      omega
    rw [tokens_stateAt inp1 p1 h1, tokens_stateAt inp2 p2 h2, e1, e2]
    simp only [if_pos ht]
  | succ n ih =>
    intro inp1 p1 inp2 p2 hn h1 h2 hs
    obtain ⟨tok, k, e1, e2⟩ := getNextToken_suffix (n + 1) inp1 p1 inp2 p2 hn hs
    obtain ⟨q, tok2, e3, _, hq, _, hprog⟩ := getNextToken_step inp1 p1 h1
    obtain ⟨q2, tok3, e4, _, hq2, _, _⟩ := getNextToken_step inp2 p2 h2
    rw [e1] at e3
    rw [e2] at e4
    have htk : tok = tok2 := (Prod.mk.inj e3).1
    subst htk
    have hk : p1 + k = q := stateAt_pos_inj (congrArg Prod.snd e3)
    have hk2 : p2 + k = q2 := stateAt_pos_inj (congrArg Prod.snd e4)
    rw [tokens_stateAt inp1 p1 h1, tokens_stateAt inp2 p2 h2, e1, e2]
    by_cases ht : tok.Typ = EOF
    · simp only [if_pos ht]
    · have := (hprog ht).1
      simp only [if_neg ht]
      rw [ih inp1 (p1 + k) inp2 (p2 + k) (by omega) (by omega) (by omega)
        (by rw [drop_add, drop_add inp2, hs])]

/-- The token sequence from index `p` is the token sequence of the input
`input[p:]`. -/
theorem tokens_drop (input : GoString) (p : Nat) (hp : p ≤ input.length) :
    (stateAt input p).tokens = tokenize (input.drop p) := by
  rw [tokenize, NewLexer_eq]
  exact tokens_suffix (input.length - p) input p (input.drop p) 0 (Nat.le_refl _) hp
    (Nat.zero_le _) (by rw [List.drop_zero])

/-! ## Token sequences as functions of the input -/

theorem tokens_skip (input : GoString) (p q : Nat) (hp : p ≤ input.length)
    (hq : q ≤ input.length)
    (h : (stateAt input p).getNextToken = (stateAt input q).getNextToken) :
    (stateAt input p).tokens = (stateAt input q).tokens := by
  rw [tokens_stateAt input p hp, tokens_stateAt input q hq, h]

/-- Kind and length of the token produced at the head of an input that does not
begin with NUL. -/
theorem suffixToken_bounds (s : GoString) (h0 : s.headD 0 ≠ 0) :
    (suffixToken s).1.Typ ≠ EOF ∧ 1 ≤ (suffixToken s).2 ∧ (suffixToken s).2 ≤ s.length := by
  have hlt : 0 < s.length := headD_ne_zero_lt s 0 (by rw [List.drop_zero]; exact h0)
  have hc : s.getD 0 0 ≠ 0 := by rw [getD_eq_headD_drop, List.drop_zero]; exact h0
  obtain ⟨q, tok, he, h1, h2, h3, _⟩ := produceToken_stateAt s 0 hlt hc
  rw [produceToken_suffix, List.drop_zero, Nat.zero_add] at he
  obtain ⟨e1, e2⟩ := Prod.mk.inj he
  have e3 : (suffixToken s).2 = q := stateAt_pos_inj e2
  rw [e1, e3]
  exact ⟨h3, h1, h2⟩

/-- The token sequence of an input, by cases on how the input begins. -/
theorem tokenize_step (s : GoString) :
    tokenize s =
      if s.headD 0 = 0 then [⟨EOF, []⟩]
      else if isSpace (s.headD 0) then tokenize (s.dropWhile wsCond)
      else if s.headD 0 = 47 ∧ (s.drop 1).headD 0 = 47 then tokenize (s.drop (commentLen s))
      else (suffixToken s).1 :: tokenize (s.drop (suffixToken s).2) := by
  have form := getNextToken_suffix_form s 0
  simp only [List.drop_zero, Nat.zero_add] at form
  rw [tokenize, NewLexer_eq]
  by_cases h0 : s.headD 0 = 0
  · rw [if_pos h0] at form
    rw [if_pos h0, tokens_stateAt s 0 (Nat.zero_le _), form]
    rfl
  · rw [if_neg h0] at form
    rw [if_neg h0]
    by_cases hsp : isSpace (s.headD 0) = true
    · rw [if_pos hsp] at form
      rw [if_pos hsp]
      have hle : (s.takeWhile wsCond).length ≤ s.length :=
        (List.takeWhile_sublist wsCond).length_le
      rw [tokens_skip s 0 _ (Nat.zero_le _) hle form, tokens_drop s _ hle,
        drop_length_takeWhile]
    · rw [if_neg hsp] at form
      rw [if_neg hsp]
      by_cases hcm : s.headD 0 = 47 ∧ (s.drop 1).headD 0 = 47
      · rw [if_pos hcm] at form
        rw [if_pos hcm]
        have h2 : 1 < s.length :=
          headD_ne_zero_lt s 1 (by rw [hcm.2]; decide)
        obtain ⟨q, _, hq, he⟩ := skipComment_stateAt_exists s 0
        rw [skipComment_suffix, List.drop_zero, Nat.zero_add] at he
        have hle : commentLen s ≤ s.length := by
          rw [stateAt_pos_inj he]
          exact hq (by omega)
        rw [tokens_skip s 0 _ (Nat.zero_le _) hle form, tokens_drop s _ hle]
      · rw [if_neg hcm] at form
        rw [if_neg hcm]
        obtain ⟨hne, _, hle⟩ := suffixToken_bounds s h0
        rw [tokens_stateAt s 0 (Nat.zero_le _), form]
        simp only [if_neg hne]
        rw [tokens_drop s _ hle]

/-- White space at the beginning of the input does not change the token
sequence. -/
theorem tokenize_dropWhile_ws (s : GoString) :
    tokenize (s.dropWhile wsCond) = tokenize s := by
  cases s with
  | nil => rfl
  | cons x xs =>
    by_cases h : wsCond x = true
    · have h2 := h
      simp only [wsCond, Bool.and_eq_true, decide_eq_true_eq, ne_eq] at h2
      rw [tokenize_step (x :: xs)]
      simp only [List.headD_cons]
      rw [if_neg h2.1, if_pos h2.2]
    · rw [List.dropWhile_cons_of_neg h]

theorem tokenize_ws_cons (x : Byte) (s : GoString) (h0 : x ≠ 0) (hs : isSpace x = true) :
    tokenize (x :: s) = tokenize s := by
  have hw : wsCond x = true := by
    simp only [wsCond, Bool.and_eq_true, decide_eq_true_eq, ne_eq]
    exact ⟨h0, hs⟩
  rw [← tokenize_dropWhile_ws (x :: s), List.dropWhile_cons_of_pos hw, tokenize_dropWhile_ws]

theorem tokenize_nul_cons (s : GoString) : tokenize (0 :: s) = [⟨EOF, []⟩] := by
  rw [tokenize_step]
  simp

/-- What remains of an input `// t` after the comment. -/
theorem drop_commentLen (t : GoString) :
    (47 :: 47 :: t).drop (commentLen (47 :: 47 :: t)) =
      dropNewline (t.dropWhile commentCond) := by
  have hd : (47 :: 47 :: t : GoString).drop 2 = t := rfl
  unfold commentLen dropNewline
  rw [hd]
  split
  · rw [show 2 + (t.takeWhile commentCond).length + 1 = 2 + ((t.takeWhile commentCond).length + 1)
      by omega, drop_add, hd, drop_add, drop_length_takeWhile]
    cases t.dropWhile commentCond <;> rfl
  · rw [drop_add, hd, drop_length_takeWhile]

theorem tokenize_comment (t : GoString) :
    tokenize (47 :: 47 :: t) = tokenize (dropNewline (t.dropWhile commentCond)) := by
  rw [tokenize_step (47 :: 47 :: t), ← drop_commentLen]
  simp only [List.headD_cons, List.drop_one, List.tail_cons]
  rw [if_neg (by decide), if_neg (by decide), if_pos ⟨trivial, trivial⟩]

/-! ## A line comment behaves like a line feed -/

theorem takeWhile_append_stop (cond : Byte → Bool) (a : GoString) (z : Byte) (r : GoString)
    (hz : cond z = false) : (a ++ z :: r).takeWhile cond = a.takeWhile cond := by
  induction a with
  | nil => rw [List.nil_append, List.takeWhile_cons_of_neg (by rw [hz]; exact Bool.false_ne_true)]
           rfl
  | cons x xs ih =>
    by_cases h : cond x = true
    · rw [List.cons_append, List.takeWhile_cons_of_pos h, List.takeWhile_cons_of_pos h, ih]
    · rw [List.cons_append, List.takeWhile_cons_of_neg h, List.takeWhile_cons_of_neg h]

theorem suffixToken_append (x : Byte) (a : GoString) (z : Byte) (r : GoString)
    (hz1 : numCond z = false) (hz2 : identCond z = false) :
    suffixToken (x :: a ++ z :: r) = suffixToken (x :: a) := by
  unfold suffixToken
  rw [takeWhile_append_stop numCond (x :: a) z r hz1,
    takeWhile_append_stop identCond (x :: a) z r hz2]
  rfl

theorem dropWhile_eq_cons (cond : Byte → Bool) (l : GoString) (z : Byte) (w : GoString)
    (h : l.dropWhile cond = z :: w) : cond z = false ∧ ∃ u, l = u ++ z :: w := by
  constructor
  · induction l with
    | nil => exact absurd h (by simp)
    | cons x xs ih =>
      by_cases hx : cond x = true
      · rw [List.dropWhile_cons_of_pos hx] at h
        exact ih h
      · rw [List.dropWhile_cons_of_neg hx] at h
        obtain ⟨rfl, _⟩ := List.cons.inj h
        simpa using hx
  · exact ⟨l.takeWhile cond, by rw [← h, List.takeWhile_append_dropWhile]⟩

theorem getLast_suffix (u w : GoString) (h : (u ++ w).getLast? ≠ some 47) :
    w.getLast? ≠ some 47 := by
  cases w with
  | nil => simp
  | cons y ys =>
    rw [List.getLast?_append_of_ne_nil u (List.cons_ne_nil y ys)] at h
    exact h

theorem commentCond_false (z : Byte) (h : commentCond z = false) : z = 0 ∨ z = 10 := by
  simp only [commentCond, Bool.and_eq_false_iff, decide_eq_false_iff_not, ne_eq, not_not] at h
  exact h

/-- The token sequence of `// c \n b`, for `c` free of line feeds and NULs, is
that of `b`. -/
theorem tokenize_comment_line (b c : GoString) (hc : ∀ x ∈ c, commentCond x = true) :
    tokenize (47 :: 47 :: (c ++ 10 :: b)) = tokenize b := by
  rw [tokenize_comment, List.dropWhile_append_of_pos hc,
    List.dropWhile_cons_of_neg (by decide)]
  rfl

theorem dropWhile_comment_line (b c : GoString) (hc : ∀ x ∈ c, commentCond x = true) :
    (47 :: 47 :: (c ++ 10 :: b)).dropWhile commentCond = 10 :: b := by
  rw [List.dropWhile_cons_of_pos (by decide), List.dropWhile_cons_of_pos (by decide),
    List.dropWhile_append_of_pos hc, List.dropWhile_cons_of_neg (by decide)]

theorem comment_as_newline (b c : GoString) (hc : ∀ x ∈ c, commentCond x = true) :
    ∀ (n : Nat) (a : GoString), a.length ≤ n → a.getLast? ≠ some 47 →
      tokenize (a ++ 47 :: 47 :: (c ++ 10 :: b)) = tokenize (a ++ 10 :: b) := by
  intro n
  induction n with
  | zero =>
    intro a hn _
    have : a = [] := List.length_eq_zero.mp (Nat.le_zero.mp hn)
    subst this
    rw [List.nil_append, List.nil_append, tokenize_comment_line b c hc,
      tokenize_ws_cons 10 b (by decide) (by decide)]
  | succ n ih =>
    intro a hn ha
    cases a with
    | nil =>
      rw [List.nil_append, List.nil_append, tokenize_comment_line b c hc,
        tokenize_ws_cons 10 b (by decide) (by decide)]
    | cons x a1 =>
      have hlen : a1.length ≤ n := by
        rw [List.length_cons] at hn; omega
      have ha1 : a1.getLast? ≠ some 47 := getLast_suffix [x] a1 ha
      by_cases h0 : x = 0
      · subst h0
        rw [List.cons_append, List.cons_append, tokenize_nul_cons, tokenize_nul_cons]
      by_cases hsp : isSpace x = true
      · rw [List.cons_append, List.cons_append, tokenize_ws_cons x _ h0 hsp,
          tokenize_ws_cons x _ h0 hsp]
        exact ih a1 hlen ha1
      -- the remaining cases: a comment inside `a`, or a token
      have token_case : ¬(x = 47 ∧ (a1 ++ 47 :: 47 :: (c ++ 10 :: b)).headD 0 = 47) →
          ¬(x = 47 ∧ (a1 ++ 10 :: b).headD 0 = 47) →
          tokenize (x :: a1 ++ 47 :: 47 :: (c ++ 10 :: b)) = tokenize (x :: a1 ++ 10 :: b) := by
        intro hcm1 hcm2
        have hb := suffixToken_bounds (x :: a1) h0
        have e1 := suffixToken_append x a1 47 (47 :: (c ++ 10 :: b)) (by decide) (by decide)
        have e2 := suffixToken_append x a1 10 b (by decide) (by decide)
        have hh1 : (x :: a1 ++ 47 :: 47 :: (c ++ 10 :: b)).headD 0 = x := rfl
        have hh2 : (x :: a1 ++ 10 :: b).headD 0 = x := rfl
        have hd1 : (x :: a1 ++ 47 :: 47 :: (c ++ 10 :: b)).drop 1 =
            a1 ++ 47 :: 47 :: (c ++ 10 :: b) := rfl
        have hd2 : (x :: a1 ++ 10 :: b).drop 1 = a1 ++ 10 :: b := rfl
        rw [tokenize_step (x :: a1 ++ 47 :: 47 :: (c ++ 10 :: b)),
          tokenize_step (x :: a1 ++ 10 :: b), e1, e2, hh1, hh2, hd1, hd2,
          if_neg h0, if_neg hsp, if_neg hcm1, if_neg h0, if_neg hsp, if_neg hcm2,
          List.drop_append_of_le_length hb.2.2, List.drop_append_of_le_length hb.2.2]
        have hl : ((x :: a1).drop (suffixToken (x :: a1)).2).length ≤ n := by
          rw [List.length_drop]
          have := hb.2.1
          omega
        have hlast : ((x :: a1).drop (suffixToken (x :: a1)).2).getLast? ≠ some 47 := by
          apply getLast_suffix ((x :: a1).take (suffixToken (x :: a1)).2)
          rw [List.take_append_drop]
          exact ha
        rw [ih _ hl hlast]
      by_cases hx : x = 47
      · subst hx
        cases a1 with
        | nil => exact absurd rfl ha
        | cons y a2 =>
          by_cases hy : y = 47
          · subst hy
            have hlen2 : a2.length ≤ n := by
              rw [List.length_cons] at hlen; omega
            rw [List.cons_append, List.cons_append, List.cons_append, List.cons_append,
              tokenize_comment, tokenize_comment]
            by_cases hall : ∀ z ∈ a2, commentCond z = true
            · rw [List.dropWhile_append_of_pos hall, List.dropWhile_append_of_pos hall,
                dropWhile_comment_line b c hc, List.dropWhile_cons_of_neg (by decide)]
            · have hne : a2.dropWhile commentCond ≠ [] := by
                intro he
                exact hall (List.dropWhile_eq_nil_iff.mp he)
              obtain ⟨z, w, hzw⟩ := List.exists_cons_of_ne_nil hne
              obtain ⟨hz, u, hu⟩ := dropWhile_eq_cons commentCond a2 z w hzw
              have hdrop : ∀ X : GoString,
                  (a2 ++ X).dropWhile commentCond = z :: (w ++ X) := by
                intro X
                rw [List.dropWhile_append, hzw]
                rfl
              rw [hdrop, hdrop]
              rcases commentCond_false z hz with rfl | rfl
              · have : ∀ X : GoString, dropNewline (0 :: (w ++ X)) = 0 :: (w ++ X) :=
                  fun X => rfl
                rw [this, this, tokenize_nul_cons, tokenize_nul_cons]
              · have : ∀ X : GoString, dropNewline (10 :: (w ++ X)) = w ++ X :=
                  fun X => rfl
                rw [this, this]
                have hwl : w.length ≤ n := by
                  have := congrArg List.length hu
                  rw [List.length_append, List.length_cons] at this
                  omega
                have hwlast : w.getLast? ≠ some 47 := by
                  apply getLast_suffix (47 :: 47 :: (u ++ [10]))
                  have e : 47 :: 47 :: (u ++ [10]) ++ w = 47 :: 47 :: a2 := by
                    rw [hu]; simp
                  rw [e]
                  exact ha
                exact ih w hwl hwlast
          · apply token_case
            · rintro ⟨_, h⟩
              exact hy h
            · rintro ⟨_, h⟩
              exact hy h
      · apply token_case
        · rintro ⟨h, _⟩
          exact hx h
        · rintro ⟨h, _⟩
          exact hx h

theorem lit_slashes_newline : lit "//" = [47, 47] ∧ lit "\n" = [10] := by decide

/-- C7 (comment skipping emits nothing): for all strings `a`, `b`, `c` such
that `a` does not end with `/` and `c` contains neither a line feed nor a NUL
byte, the token sequence of `a ++ "//" ++ c ++ "\n" ++ b` equals the token
sequence of `a ++ "\n" ++ b`; and `1 // comment to end\n2` yields `NUM 1`,
`NUM 2`, `EOF`. -/
theorem C7_comment_like_newline (a b c : GoString) (ha : a.getLast? ≠ some 47)
    (hc : ∀ x ∈ c, x ≠ 10 ∧ x ≠ 0) :
    tokenize (a ++ lit "//" ++ c ++ lit "\n" ++ b) = tokenize (a ++ lit "\n" ++ b) ∧
      tokenize (lit "1 // comment to end\n2") =
        [⟨NUMBER, lit "1"⟩, ⟨NUMBER, lit "2"⟩, ⟨EOF, []⟩] := by
  have hc2 : ∀ x ∈ c, commentCond x = true := by
    intro x hx
    simp only [commentCond, Bool.and_eq_true, decide_eq_true_eq, ne_eq]
    exact ⟨(hc x hx).2, (hc x hx).1⟩
  have h := comment_as_newline b c hc2 a.length a (Nat.le_refl _) ha
  refine ⟨?_, by decide⟩
  rw [lit_slashes_newline.1, lit_slashes_newline.2]
  simpa using h

/-- Witness of C7: `x 1 ` followed by the comment `// y/2`, a line feed and
`+2`. -/
theorem C7_comment_like_newline_witness :
    (lit "x 1 ").getLast? ≠ some 47 ∧ (∀ x ∈ lit " y/2", x ≠ 10 ∧ x ≠ 0) ∧
    tokenize (lit "x 1 " ++ lit "//" ++ lit " y/2" ++ lit "\n" ++ lit "+2") =
      tokenize (lit "x 1 " ++ lit "\n" ++ lit "+2") :=
  ⟨by decide, by decide,
    (C7_comment_like_newline (lit "x 1 ") (lit "+2") (lit " y/2") (by decide) (by decide)).1⟩

/-! ## Kind and text of the token returned -/

theorem runeToString_ne_nil : ∀ c : Byte, runeToString c ≠ [] := by decide

theorem runesText_ne_nil (bs : GoString) (h : bs ≠ []) : runesText bs ≠ [] := by
  intro he
  have := runeCount_runesText bs
  rw [he] at this
  cases bs with
  | nil => exact h rfl
  | cons x xs => simp [runeCount] at this

theorem takeWhile_ne_nil (cond : Byte → Bool) (s : GoString) (h0 : cond 0 = false)
    (h : cond (s.headD 0) = true) : s.takeWhile cond ≠ [] := by
  cases s with
  | nil =>
    rw [show ([] : GoString).headD 0 = 0 from rfl, h0] at h
    exact Bool.noConfusion h
  | cons x xs =>
    rw [List.headD_cons] at h
    rw [List.takeWhile_cons_of_pos h]
    exact List.cons_ne_nil _ _

theorem kinds_membership :
    NUMBER ∈ allKinds ∧ ID ∈ allKinds ∧ OP ∈ allKinds ∧ LPAR ∈ allKinds ∧ RPAR ∈ allKinds ∧
    SEMICOLON ∈ allKinds ∧ DIV ∈ allKinds ∧ MOD ∈ allKinds ∧ INVALID ∈ allKinds ∧
    EOF ∈ allKinds ∧
    NUMBER ∉ emptyTextKinds ∧ ID ∉ emptyTextKinds ∧ OP ∉ emptyTextKinds ∧
    INVALID ∉ emptyTextKinds ∧
    LPAR ∈ emptyTextKinds ∧ RPAR ∈ emptyTextKinds ∧ SEMICOLON ∈ emptyTextKinds ∧
    DIV ∈ emptyTextKinds ∧ MOD ∈ emptyTextKinds ∧ EOF ∈ emptyTextKinds := by decide

/-- Kind and text of the token produced at the head of an input that does not
begin with NUL. -/
theorem suffixToken_kind_text (s : GoString) (h0 : s.headD 0 ≠ 0) :
    (suffixToken s).1.Typ ∈ allKinds ∧
      ((suffixToken s).1.Value = [] ↔ (suffixToken s).1.Typ ∈ emptyTextKinds) := by
  obtain ⟨k1, k2, k3, k4, k5, k6, k7, k8, k9, k10, n1, n2, n3, n4, e1, e2, e3, e4, e5, e6⟩ :=
    kinds_membership
  unfold suffixToken
  split
  · rename_i hd
    have hw : numCond (s.headD 0) = true := by
      simp only [numCond, Bool.and_eq_true, decide_eq_true_eq, ne_eq]
      exact ⟨h0, hd⟩
    have hne := runesText_ne_nil _ (takeWhile_ne_nil numCond s cond_zero.2.2.1 hw)
    exact ⟨k1, fun h => absurd h hne, fun h => absurd h n1⟩
  · split
    · rename_i hl
      have hw : identCond (s.headD 0) = true := by
        simp only [identCond, Bool.and_eq_true, decide_eq_true_eq, ne_eq, Bool.or_eq_true]
        exact ⟨h0, Or.inl hl⟩
      have hne := runesText_ne_nil _ (takeWhile_ne_nil identCond s cond_zero.2.2.2 hw)
      split
      · exact ⟨k7, fun _ => e4, fun _ => rfl⟩
      · split
        · exact ⟨k8, fun _ => e5, fun _ => rfl⟩
        · exact ⟨k2, fun h => absurd h hne, fun h => absurd h n2⟩
    · split
      · exact ⟨k3, fun h => absurd h (runeToString_ne_nil _), fun h => absurd h n3⟩
      · split
        · exact ⟨k4, fun _ => e1, fun _ => rfl⟩
        · split
          · exact ⟨k5, fun _ => e2, fun _ => rfl⟩
          · split
            · exact ⟨k6, fun _ => e3, fun _ => rfl⟩
            · exact ⟨k9, fun h => absurd h (runeToString_ne_nil _), fun h => absurd h n4⟩

/-- C12 (text payload is determined by kind): in every reachable state the
token returned by `getNextToken` has one of the ten kinds, and its `Value` is
empty exactly when the kind is one of `LPAR`, `RPAR`, `SEMICOLON`, `DIV`, `MOD`,
`EOF`; so `NUM`, `ID`, `OP` and `INVALID` tokens carry a non-empty `Value`. -/
theorem C12_text_determined_by_kind (input : GoString) (l : Lexer) (h : Reachable input l) :
    l.getNextToken.1.Typ ∈ allKinds ∧
      (l.getNextToken.1.Value = [] ↔ l.getNextToken.1.Typ ∈ emptyTextKinds) := by
  obtain ⟨p, hp, rfl⟩ := reachable_stateAt h
  refine getNextToken_induction input
    (fun _ r => r.1.Typ ∈ allKinds ∧ (r.1.Value = [] ↔ r.1.Typ ∈ emptyTextKinds)) ?_ ?_ ?_ p hp
  · intro _ _ _
    exact ⟨kinds_membership.2.2.2.2.2.2.2.2.2.1,
      fun _ => kinds_membership.2.2.2.2.2.2.2.2.2.2.2.2.2.2.2.2.2.2.2, fun _ => rfl⟩
  · intro _ _ _ _ _ _ hr
    exact hr
  · intro q _ hc _ _
    rw [produceToken_suffix]
    exact suffixToken_kind_text _ (by rw [← getD_eq_headD_drop]; exact hc)

/-- Witness of C12: the state reached on `x+1` after the first call. -/
theorem C12_text_determined_by_kind_witness :
    Reachable (lit "x+1") (NewLexer (lit "x+1")).getNextToken.2 ∧
    (NewLexer (lit "x+1")).getNextToken.2.getNextToken.1.Typ ∈ allKinds :=
  ⟨Reachable.step Reachable.init,
    (C12_text_determined_by_kind (lit "x+1") _ (Reachable.step Reachable.init)).1⟩

/-- C16 (cached current character): in every reachable state, that is after
`NewLexer(input)` and after every `getNextToken` call, the `input` field is
the input, `currentChar` is the byte `input[position]` when
`position < len(input)`, and is `0` when `position = len(input)`. -/
theorem C16_current_char_cached (input : GoString) (l : Lexer) (h : Reachable input l) :
    l.input = input ∧
      (∀ hlt : l.position < input.length, l.currentChar = input[l.position]) ∧
      (l.position = input.length → l.currentChar = 0) := by
  obtain ⟨p, hp, rfl⟩ := reachable_stateAt h
  refine ⟨rfl, fun hlt => getD_of_lt _ _ hlt, fun he => getD_of_le _ _ ?_⟩
  rw [stateAt_position] at he
  exact Nat.le_of_eq he.symm

/-- Witness of C16: the state reached on `ab 1` after the first call. -/
theorem C16_current_char_cached_witness :
    Reachable (lit "ab 1") (NewLexer (lit "ab 1")).getNextToken.2 ∧
    (NewLexer (lit "ab 1")).getNextToken.2.input = lit "ab 1" :=
  ⟨Reachable.step Reachable.init,
    (C16_current_char_cached (lit "ab 1") _ (Reachable.step Reachable.init)).1⟩


/-! ## The remaining token stream depends on the unconsumed input only -/

theorem nthCall_suffix (n : Nat) :
    ∀ (inp1 : GoString) (p1 : Nat) (inp2 : GoString) (p2 : Nat),
      inp1.drop p1 = inp2.drop p2 →
      ((stateAt inp1 p1).nthCall n).1 = ((stateAt inp2 p2).nthCall n).1 := by
  induction n with
  | zero =>
    intro inp1 p1 inp2 p2 hs
    obtain ⟨tok, k, e1, e2⟩ :=
      getNextToken_suffix (inp1.length - p1) inp1 p1 inp2 p2 (Nat.le_refl _) hs
    rw [Lexer.nthCall, Lexer.nthCall, e1, e2]
  | succ n ih =>
    intro inp1 p1 inp2 p2 hs
    obtain ⟨tok, k, e1, e2⟩ :=
      getNextToken_suffix (inp1.length - p1) inp1 p1 inp2 p2 (Nat.le_refl _) hs
    rw [Lexer.nthCall, Lexer.nthCall, e1, e2]
    exact ih inp1 (p1 + k) inp2 (p2 + k) (by rw [drop_add, drop_add inp2, hs])

/-- C14 (no persistent modes across calls): in every state reached from
`NewLexer(input)`, with the cursor at position `p`, the tokens produced by
further `getNextToken` calls are those produced by a fresh
`NewLexer(input[p:])`: call by call, and hence as token sequences up to the
first `EOF`. -/
theorem C14_stream_depends_on_suffix (input : GoString) (l : Lexer) (h : Reachable input l) :
    (∀ n, (l.nthCall n).1 = ((NewLexer (input.drop l.position)).nthCall n).1) ∧
      l.tokens = tokenize (input.drop l.position) := by
  obtain ⟨p, hp, rfl⟩ := reachable_stateAt h
  constructor
  · intro n
    rw [NewLexer_eq, stateAt_position]
    exact nthCall_suffix n input p (input.drop p) 0 (by rw [List.drop_zero])
  · rw [stateAt_position]
    exact tokens_drop input p hp

/-- Witness of C14: the state reached on `a // b` after the first call, which
is followed by a comment. -/
theorem C14_stream_depends_on_suffix_witness :
    Reachable (lit "a // b") (NewLexer (lit "a // b")).getNextToken.2 ∧
    (NewLexer (lit "a // b")).getNextToken.2.tokens =
      tokenize ((lit "a // b").drop (NewLexer (lit "a // b")).getNextToken.2.position) :=
  ⟨Reachable.step Reachable.init,
    (C14_stream_depends_on_suffix (lit "a // b") _ (Reachable.step Reachable.init)).2⟩

/-! ## Division operator or comment -/

theorem getD_eq_slash_iff (input : GoString) (i : Nat) :
    input.getD i 0 = 47 ↔ input[i]? = some 47 := by
  by_cases h : i < input.length
  · rw [getD_of_lt _ _ h, List.getElem?_eq_getElem h]
    exact ⟨fun he => by rw [he], fun he => Option.some.inj he⟩
  · rw [getD_of_le _ _ (Nat.le_of_not_lt h), List.getElem?_eq_none (Nat.le_of_not_lt h)]
    exact ⟨fun he => absurd he (by decide), fun he => Option.noConfusion he⟩

/-- C17 (division versus comment lookahead): in every reachable state whose
current character is `/`, at position `p`, `getNextToken` returns
`Token{OP, "/"}` and leaves the cursor at `p + 1` exactly when the byte at
`p + 1` is not `/` (also when there is no such byte); and when it is `/`, the
call continues as a call made after `skipComment`, which leaves the cursor at
`p + 2` or beyond, so no token comes from positions `p` and `p + 1`. -/
theorem C17_slash_lookahead (input : GoString) (l : Lexer) (h : Reachable input l)
    (hc : l.currentChar = 47) :
    ((l.getNextToken.1 = ⟨OP, lit "/"⟩ ∧ l.getNextToken.2.position = l.position + 1) ↔
        input[l.position + 1]? ≠ some 47) ∧
      (input[l.position + 1]? = some 47 →
        l.getNextToken = l.skipComment.getNextToken ∧
        l.position + 2 ≤ l.skipComment.position ∧
        l.skipComment.position ≤ l.getNextToken.2.position) := by
  obtain ⟨p, hp, rfl⟩ := reachable_stateAt h
  rw [stateAt_currentChar] at hc
  rw [stateAt_position]
  have hlt : p < input.length := by
    by_contra hn
    rw [getD_of_le _ _ (Nat.le_of_not_lt hn)] at hc
    exact absurd hc (by decide)
  have hform := getNextToken_stateAt input p
  rw [stateAt_currentChar, hc, peek_stateAt, if_neg (by decide), if_neg (by decide)] at hform
  by_cases hpk : input[p + 1]? = some 47
  · have hpk2 : input.getD (p + 1) 0 = 47 := (getD_eq_slash_iff input (p + 1)).mpr hpk
    rw [if_pos ⟨rfl, hpk2⟩] at hform
    obtain ⟨q, hq, hq2, he⟩ := skipComment_stateAt_exists input p
    have hp2 : p + 2 ≤ input.length := by
      have : p + 1 < input.length := by
        by_contra hn
        rw [getD_of_le _ _ (Nat.le_of_not_lt hn)] at hpk2
        exact absurd hpk2 (by decide)
      omega
    obtain ⟨q2, tok, e2, hqq, _, _, _⟩ := getNextToken_step input q (hq2 hp2)
    have hpos : (stateAt input p).getNextToken.2.position = q2 := by
      rw [hform, he, e2]; rfl
    refine ⟨⟨fun hh => ?_, fun hh => absurd hpk hh⟩, fun _ => ⟨hform, ?_, ?_⟩⟩
    · rw [hpos] at hh
      omega
    · rw [he]; exact hq
    · rw [hpos, he]; exact hqq
  · have hpk2 : ¬((47 : Byte) = 47 ∧ input.getD (p + 1) 0 = 47) :=
      fun hh => hpk ((getD_eq_slash_iff input (p + 1)).mp hh.2)
    rw [if_neg hpk2, Lexer.produceToken, stateAt_currentChar, hc, if_neg (by decide),
      if_neg (by decide), if_pos (Or.inr (Or.inr (Or.inr rfl))), advance_stateAt] at hform
    refine ⟨⟨fun _ => hpk, fun _ => ?_⟩, fun hh => absurd hh hpk⟩
    rw [hform]
    exact ⟨rfl, rfl⟩

/-- Witness of C17: the state reached on `6/2` after the first call, where `/`
is followed by a digit. -/
theorem C17_slash_lookahead_witness :
    Reachable (lit "6/2") (NewLexer (lit "6/2")).getNextToken.2 ∧
    (NewLexer (lit "6/2")).getNextToken.2.currentChar = 47 ∧
    (lit "6/2")[(NewLexer (lit "6/2")).getNextToken.2.position + 1]? ≠ some 47 ∧
    (NewLexer (lit "6/2")).getNextToken.2.getNextToken.1 = ⟨OP, lit "/"⟩ :=
  ⟨Reachable.step Reachable.init, by decide, by decide,
    ((C17_slash_lookahead (lit "6/2") _ (Reachable.step Reachable.init) (by decide)).1.mpr
      (by decide)).1⟩


/-! ## Number and identifier tokens -/

theorem headD_dropWhile (cond : Byte → Bool) (h0 : cond 0 = false) (s : GoString) :
    cond ((s.dropWhile cond).headD 0) = false := by
  cases hd : s.dropWhile cond with
  | nil => exact h0
  | cons z w => exact (dropWhile_eq_cons cond s z w hd).1

/-- The current character after a token that consumed the bytes of `input`
from index `p` on that satisfy `cond`. -/
theorem currentChar_after_run (cond : Byte → Bool) (h0 : cond 0 = false) (input : GoString)
    (p : Nat) :
    cond (stateAt input (p + ((input.drop p).takeWhile cond).length)).currentChar = false := by
  rw [stateAt_currentChar, getD_eq_headD_drop, drop_add, drop_length_takeWhile]
  exact headD_dropWhile cond h0 _

theorem currentChar_eq_getElem (input : GoString) (l : Lexer) (q : Nat)
    (he : l = stateAt input q) (hlt : l.position < input.length) :
    l.currentChar = input[l.position] := by
  subst he
  exact getD_of_lt _ _ hlt

theorem not_NUMBER : ID ≠ NUMBER ∧ OP ≠ NUMBER ∧ LPAR ≠ NUMBER ∧ RPAR ≠ NUMBER ∧
    SEMICOLON ≠ NUMBER ∧ DIV ≠ NUMBER ∧ MOD ≠ NUMBER ∧ INVALID ≠ NUMBER ∧ EOF ≠ NUMBER := by
  decide

theorem not_ID : NUMBER ≠ ID ∧ OP ≠ ID ∧ LPAR ≠ ID ∧ RPAR ≠ ID ∧
    SEMICOLON ≠ ID ∧ DIV ≠ ID ∧ MOD ≠ ID ∧ INVALID ≠ ID ∧ EOF ≠ ID := by
  decide

theorem suffixToken_NUMBER (s : GoString) (h : (suffixToken s).1.Typ = NUMBER) :
    isDigit (s.headD 0) = true ∧
      suffixToken s =
        (⟨NUMBER, runesText (s.takeWhile numCond)⟩, (s.takeWhile numCond).length) := by
  obtain ⟨k1, k2, k3, k4, k5, k6, k7, k8, k9⟩ := not_NUMBER
  by_cases hd : isDigit (s.headD 0) = true
  · exact ⟨hd, by unfold suffixToken; rw [if_pos hd]⟩
  · exfalso
    unfold suffixToken at h
    rw [if_neg hd] at h
    split_ifs at h
    · exact k6 h
    · exact k7 h
    · exact k1 h
    · exact k2 h
    · exact k3 h
    · exact k4 h
    · exact k5 h
    · exact k8 h

theorem suffixToken_ID (s : GoString) (h : (suffixToken s).1.Typ = ID) :
    isDigit (s.headD 0) = false ∧ isLetter (s.headD 0) = true ∧
      toLower (runesText (s.takeWhile identCond)) ≠ lit "div" ∧
      toLower (runesText (s.takeWhile identCond)) ≠ lit "mod" ∧
      suffixToken s =
        (⟨ID, runesText (s.takeWhile identCond)⟩, (s.takeWhile identCond).length) := by
  obtain ⟨k1, k2, k3, k4, k5, k6, k7, k8, k9⟩ := not_ID
  unfold suffixToken at h ⊢
  by_cases hd : isDigit (s.headD 0) = true
  · rw [if_pos hd] at h
    exact absurd h k1
  · rw [if_neg hd] at h ⊢
    by_cases hl : isLetter (s.headD 0) = true
    · rw [if_pos hl] at h ⊢
      by_cases h1 : toLower (runesText (s.takeWhile identCond)) = lit "div"
      · rw [if_pos h1] at h
        exact absurd h k6
      · rw [if_neg h1] at h ⊢
        by_cases h2 : toLower (runesText (s.takeWhile identCond)) = lit "mod"
        · rw [if_pos h2] at h
          exact absurd h k7
        · rw [if_neg h2]
          exact ⟨by simpa using hd, hl, h1, h2, rfl⟩
    · exfalso
      rw [if_neg hl] at h
      split_ifs at h
      · exact k2 h
      · exact k3 h
      · exact k4 h
      · exact k5 h
      · exact k8 h

theorem numCond_facts : ∀ c : Byte,
    (numCond c = true → isAsciiDigit c = true ∧ c.val < 128) ∧
    (numCond c = false → isDigit c = false) ∧
    (identCond c = true → isLetter c = true ∨ isDigit c = true) ∧
    (identCond c = false → isLetter c = false ∧ isDigit c = false) := by decide

/-- C19 (maximal munch for numbers): in every reachable state, if
`getNextToken` returns a token of kind `NUM`, its `Value` is non-empty and
consists of ASCII digits, and the byte at the cursor after the call, if there
is one, is not a digit. -/
theorem C19_number_maximal_munch (input : GoString) (l : Lexer) (h : Reachable input l)
    (hk : l.getNextToken.1.Typ = NUMBER) :
    l.getNextToken.1.Value ≠ [] ∧
      (∀ b ∈ l.getNextToken.1.Value, isAsciiDigit b = true) ∧
      (∀ hlt : l.getNextToken.2.position < input.length,
        isDigit input[l.getNextToken.2.position] = false) := by
  obtain ⟨p, hp, rfl⟩ := reachable_stateAt h
  have key := getNextToken_induction input
    (fun _ r => r.1.Typ = NUMBER →
      r.1.Value ≠ [] ∧ (∀ b ∈ r.1.Value, isAsciiDigit b = true) ∧
        isDigit r.2.currentChar = false) ?_ ?_ ?_ p hp hk
  · obtain ⟨q, tok, he, _, hq, _, _⟩ := getNextToken_step input p hp
    refine ⟨key.1, key.2.1, fun hlt => ?_⟩
    rw [← currentChar_eq_getElem input _ q (congrArg Prod.snd he) hlt]
    exact key.2.2
  · intro _ _ _ hh
    exact absurd hh not_NUMBER.2.2.2.2.2.2.2.2
  · intro _ _ _ _ _ _ hr
    exact hr
  · intro q _ hc _ _
    rw [produceToken_suffix]
    intro hh
    obtain ⟨hd, he⟩ := suffixToken_NUMBER _ hh
    rw [he]
    have hw : numCond ((input.drop q).headD 0) = true := by
      simp only [numCond, Bool.and_eq_true, decide_eq_true_eq, ne_eq]
      exact ⟨by rw [← getD_eq_headD_drop]; exact hc, hd⟩
    have hall : ∀ b ∈ (input.drop q).takeWhile numCond, isAsciiDigit b = true ∧ b.val < 128 :=
      fun b hb => (numCond_facts b).1 (List.mem_takeWhile_imp hb)
    have htext : runesText ((input.drop q).takeWhile numCond) =
        (input.drop q).takeWhile numCond := runesText_ascii _ (fun b hb => (hall b hb).2)
    refine ⟨runesText_ne_nil _ (takeWhile_ne_nil numCond _ cond_zero.2.2.1 hw), ?_, ?_⟩
    · intro b hb
      rw [show (({ Typ := NUMBER, Value := runesText ((input.drop q).takeWhile numCond) } : Token),
        (input.drop q).takeWhile numCond |>.length).1.Value =
        runesText ((input.drop q).takeWhile numCond) from rfl, htext] at hb
      exact (hall b hb).1
    · exact (numCond_facts _).2.1 (currentChar_after_run numCond cond_zero.2.2.1 input q)

/-- Witness of C19: the first call on `12a`. -/
theorem C19_number_maximal_munch_witness :
    Reachable (lit "12a") (NewLexer (lit "12a")) ∧
    (NewLexer (lit "12a")).getNextToken.1.Typ = NUMBER ∧
    (NewLexer (lit "12a")).getNextToken.1.Value ≠ [] :=
  ⟨Reachable.init, by decide,
    (C19_number_maximal_munch (lit "12a") _ Reachable.init (by decide)).1⟩

/-- C20 (well-formed ID tokens): in every reachable state, if `getNextToken`
returns a token of kind `ID`, its `Value` is non-empty and is the text of a
sequence of characters of which the first is a letter and all are letters or
digits, its lower-cased form is neither `div` nor `mod`, and the byte at the
cursor after the call, if there is one, is neither a letter nor a digit. -/
theorem C20_identifier_well_formed (input : GoString) (l : Lexer) (h : Reachable input l)
    (hk : l.getNextToken.1.Typ = ID) :
    l.getNextToken.1.Value ≠ [] ∧
      (∃ r rs, l.getNextToken.1.Value = runesText (r :: rs) ∧ isLetter r = true ∧
        ∀ x ∈ r :: rs, isLetter x = true ∨ isDigit x = true) ∧
      toLower l.getNextToken.1.Value ≠ lit "div" ∧
      toLower l.getNextToken.1.Value ≠ lit "mod" ∧
      (∀ hlt : l.getNextToken.2.position < input.length,
        isLetter input[l.getNextToken.2.position] = false ∧
          isDigit input[l.getNextToken.2.position] = false) := by
  obtain ⟨p, hp, rfl⟩ := reachable_stateAt h
  have key := getNextToken_induction input
    (fun _ r => r.1.Typ = ID →
      r.1.Value ≠ [] ∧
      (∃ c cs, r.1.Value = runesText (c :: cs) ∧ isLetter c = true ∧
        ∀ x ∈ c :: cs, isLetter x = true ∨ isDigit x = true) ∧
      toLower r.1.Value ≠ lit "div" ∧ toLower r.1.Value ≠ lit "mod" ∧
      (isLetter r.2.currentChar = false ∧ isDigit r.2.currentChar = false)) ?_ ?_ ?_ p hp hk
  · obtain ⟨q, tok, he, _, hq, _, _⟩ := getNextToken_step input p hp
    refine ⟨key.1, key.2.1, key.2.2.1, key.2.2.2.1, fun hlt => ?_⟩
    rw [← currentChar_eq_getElem input _ q (congrArg Prod.snd he) hlt]
    exact key.2.2.2.2
  · intro _ _ _ hh
    exact absurd hh not_ID.2.2.2.2.2.2.2.2
  · intro _ _ _ _ _ _ hr
    exact hr
  · intro q _ hc _ _
    rw [produceToken_suffix]
    intro hh
    obtain ⟨_, hl, h1, h2, he⟩ := suffixToken_ID _ hh
    rw [he]
    have hw : identCond ((input.drop q).headD 0) = true := by
      simp only [identCond, Bool.and_eq_true, decide_eq_true_eq, ne_eq, Bool.or_eq_true]
      exact ⟨by rw [← getD_eq_headD_drop]; exact hc, Or.inl hl⟩
    have hne := takeWhile_ne_nil identCond _ cond_zero.2.2.2 hw
    refine ⟨runesText_ne_nil _ hne, ?_, h1, h2,
      (numCond_facts _).2.2.2 (currentChar_after_run identCond cond_zero.2.2.2 input q)⟩
    cases hs : input.drop q with
    | nil =>
      rw [hs] at hne
      exact absurd rfl hne
    | cons x xs =>
      rw [hs, List.headD_cons] at hw hl
      refine ⟨x, xs.takeWhile identCond, ?_, hl, ?_⟩
      · rw [List.takeWhile_cons_of_pos hw]
      · intro y hy
        rw [← List.takeWhile_cons_of_pos hw] at hy
        exact (numCond_facts y).2.2.1 (List.mem_takeWhile_imp hy)

/-- Witness of C20: the first call on `x1+`. -/
theorem C20_identifier_well_formed_witness :
    Reachable (lit "x1+") (NewLexer (lit "x1+")) ∧
    (NewLexer (lit "x1+")).getNextToken.1.Typ = ID ∧
    toLower (NewLexer (lit "x1+")).getNextToken.1.Value ≠ lit "div" :=
  ⟨Reachable.init, by decide,
    (C20_identifier_well_formed (lit "x1+") _ Reachable.init (by decide)).2.2.1⟩


/-! ## Cursor bounds and termination inside a call -/

theorem atLoopHead_stateAt {input : GoString} {l : Lexer} (h : AtLoopHead input l) :
    ∃ p, p ≤ input.length ∧ l = stateAt input p := by
  induction h with
  | enter hr => exact reachable_stateAt hr
  | afterWhitespace _ _ _ ih =>
    obtain ⟨p, hp, rfl⟩ := ih
    rw [skipWhitespace_stateAt]
    exact ⟨_, run_le wsCond input p hp, rfl⟩
  | afterComment _ _ _ _ hpk ih =>
    obtain ⟨p, hp, rfl⟩ := ih
    rw [peek_stateAt] at hpk
    have hlt : p + 1 < input.length := by
      by_contra hn
      rw [getD_of_le _ _ (Nat.le_of_not_lt hn)] at hpk
      exact absurd hpk (by decide)
    obtain ⟨q, _, hq, he⟩ := skipComment_stateAt_exists input p
    rw [he]
    exact ⟨q, hq (by omega), rfl⟩

/-- One more unit of budget is one more iteration. -/
theorem scanLoop_succ (cond : Byte → Bool) :
    ∀ (n : Nat) (acc : GoString) (l : Lexer),
      (scanLoop cond (n + 1) acc l).2 =
        if cond (scanLoop cond n acc l).2.currentChar then (scanLoop cond n acc l).2.advance
        else (scanLoop cond n acc l).2 := by
  have hstep : ∀ (m : Nat) (acc : GoString) (l : Lexer),
      scanLoop cond (m + 1) acc l =
        if cond l.currentChar then
          scanLoop cond m (acc ++ runeToString l.currentChar) l.advance
        else (acc, l) := fun _ _ _ => rfl
  have hzero : ∀ (acc : GoString) (l : Lexer), scanLoop cond 0 acc l = (acc, l) :=
    fun _ _ => rfl
  intro n
  induction n with
  | zero =>
    intro acc l
    rw [hstep, hzero acc l]
    by_cases h : cond l.currentChar = true
    · rw [if_pos h, if_pos h, hzero]
    · rw [if_neg h, if_neg h]
  | succ n ih =>
    intro acc l
    by_cases h : cond l.currentChar = true
    · have e1 : scanLoop cond (n + 1 + 1) acc l =
          scanLoop cond (n + 1) (acc ++ runeToString l.currentChar) l.advance := by
        rw [hstep, if_pos h]
      have e2 : scanLoop cond (n + 1) acc l =
          scanLoop cond n (acc ++ runeToString l.currentChar) l.advance := by
        rw [hstep, if_pos h]
      rw [e1, e2]
      exact ih _ _
    · have e1 : scanLoop cond (n + 1 + 1) acc l = (acc, l) := by
        rw [hstep, if_neg h]
      have e2 : scanLoop cond (n + 1) acc l = (acc, l) := by
        rw [hstep, if_neg h]
      rw [e1, e2, if_neg h]

/-- With any budget, an inner loop started at an index leaves the lexer at an
index that is not smaller and, if the start was within the input, within the
input. -/
theorem scanLoop_index (cond : Byte → Bool) (h0 : cond 0 = false) (input : GoString) :
    ∀ (n : Nat) (acc : GoString) (p : Nat),
      ∃ q, p ≤ q ∧ (p ≤ input.length → q ≤ input.length) ∧
        (scanLoop cond n acc (stateAt input p)).2 = stateAt input q := by
  intro n
  induction n with
  | zero => intro acc p; exact ⟨p, Nat.le_refl _, fun hp => hp, rfl⟩
  | succ n ih =>
    intro acc p
    rw [scanLoop]
    by_cases h : cond (stateAt input p).currentChar = true
    · rw [if_pos h, advance_stateAt]
      have hlt := (run_pos cond h0 input p h).1
      obtain ⟨q, hq1, hq2, he⟩ := ih (acc ++ runeToString (stateAt input p).currentChar) (p + 1)
      exact ⟨q, by omega, fun _ => hq2 (by omega), he⟩
    · rw [if_neg h]
      exact ⟨p, Nat.le_refl _, fun hp => hp, rfl⟩

theorem scanLoop_terminates (cond : Byte → Bool) (h0 : cond 0 = false) (input : GoString)
    (acc : GoString) (p : Nat) :
    LoopTerminates input cond (fun n => (scanLoop cond n acc (stateAt input p)).2)
      (scanLoop cond (input.length + 1) acc (stateAt input p)).2 := by
  refine ⟨fun n => scanLoop_succ cond n acc _, fun n hc => ?_, fun n hn => ?_, ?_⟩
  · obtain ⟨q, _, _, he⟩ := scanLoop_index cond h0 input n acc p
    simp only [he] at hc ⊢
    exact ⟨(run_pos cond h0 input q hc).1, by rw [advance_stateAt]; rfl⟩
  · simp only [scanLoop, stateAt_position] at hn
    simp only
    rw [scanLoop_stateAt cond h0 input n acc p hn,
      scanLoop_stateAt cond h0 input (input.length + 1) acc p (by omega)]
  · rw [scanLoop_stateAt cond h0 input (input.length + 1) acc p (by omega)]
    exact currentChar_after_run cond h0 input p

theorem skipWhitespaceLoop_fun (l : Lexer) :
    (fun n => l.skipWhitespaceLoop n) = fun n => (scanLoop wsCond n [] l).2 :=
  funext fun n => skipWhitespaceLoop_eq_scanLoop n [] l

theorem skipCommentLoop_fun (l : Lexer) :
    (fun n => l.skipCommentLoop n) = fun n => (scanLoop commentCond n [] l).2 :=
  funext fun n => skipCommentLoop_eq_scanLoop n [] l

theorem readNumberLoop_fun (l : Lexer) :
    (fun n => (l.readNumberLoop n []).2) = fun n => (scanLoop numCond n [] l).2 :=
  funext fun n => by rw [readNumberLoop_eq_scanLoop]

theorem readIdentifierLoop_fun (l : Lexer) :
    (fun n => (l.readIdentifierLoop n []).2) = fun n => (scanLoop identCond n [] l).2 :=
  funext fun n => by rw [readIdentifierLoop_eq_scanLoop]


/-- C15 (cursor bounds): at the head of the loop of `getNextToken`, in every
call made in a reachable state (so in particular in every reachable state),
`position ≤ len(input)`, and so it is after every step made from there: after
any number `n` of iterations of the loops of `skipWhitespace`, `readNumber` and
`readIdentifier` and at their return; when `skipComment` is called (current
character and look-ahead both `/`), after its first and its second advance,
after any number of iterations of its loop and at its return; after the single
advance of an operator, punctuation or invalid token (current character not
NUL); and when `getNextToken` returns.  Positions are natural numbers, so
`0 ≤ position` holds throughout. -/
theorem C15_cursor_bounds (input : GoString) (l : Lexer) (h : AtLoopHead input l) :
    l.position ≤ input.length ∧
    (∀ n, (l.skipWhitespaceLoop n).position ≤ input.length) ∧
    l.skipWhitespace.position ≤ input.length ∧
    (l.currentChar = 47 → l.peek = 47 →
      l.advance.position ≤ input.length ∧ l.advance.advance.position ≤ input.length ∧
      (∀ n, (l.advance.advance.skipCommentLoop n).position ≤ input.length) ∧
      l.skipComment.position ≤ input.length) ∧
    (∀ n, (l.readNumberLoop n []).2.position ≤ input.length) ∧
    l.readNumber.2.position ≤ input.length ∧
    (∀ n, (l.readIdentifierLoop n []).2.position ≤ input.length) ∧
    l.readIdentifier.2.position ≤ input.length ∧
    (l.currentChar ≠ 0 → l.advance.position ≤ input.length) ∧
    l.getNextToken.2.position ≤ input.length := by
  obtain ⟨p, hp, rfl⟩ := atLoopHead_stateAt h
  have hloop : ∀ (cond : Byte → Bool), cond 0 = false → ∀ (n r : Nat), r ≤ input.length →
      (scanLoop cond n [] (stateAt input r)).2.position ≤ input.length := by
    intro cond h0 n r hr
    obtain ⟨q, _, hq, he⟩ := scanLoop_index cond h0 input n [] r
    rw [he]
    exact hq hr
  have hws : ∀ n, ((stateAt input p).skipWhitespaceLoop n).position ≤ input.length := by
    intro n
    rw [skipWhitespaceLoop_eq_scanLoop n []]
    exact hloop wsCond cond_zero.1 n p hp
  have hnum : ∀ n, ((stateAt input p).readNumberLoop n []).2.position ≤ input.length := by
    intro n
    rw [readNumberLoop_eq_scanLoop]
    exact hloop numCond cond_zero.2.2.1 n p hp
  have hid : ∀ n, ((stateAt input p).readIdentifierLoop n []).2.position ≤ input.length := by
    intro n
    rw [readIdentifierLoop_eq_scanLoop]
    exact hloop identCond cond_zero.2.2.2 n p hp
  refine ⟨hp, hws, hws _, ?_, hnum, hnum _, hid, hid _, ?_, ?_⟩
  · intro _ hpk
    rw [peek_stateAt] at hpk
    have hlt : p + 1 < input.length := by
      by_contra hn
      rw [getD_of_le _ _ (Nat.le_of_not_lt hn)] at hpk
      exact absurd hpk (by decide)
    obtain ⟨q, _, hq, he⟩ := skipComment_stateAt_exists input p
    rw [he, advance_stateAt, advance_stateAt]
    refine ⟨Nat.le_of_lt hlt, hlt, fun n => ?_, hq (by omega)⟩
    rw [skipCommentLoop_eq_scanLoop n []]
    exact hloop commentCond cond_zero.2.1 n (p + 1 + 1) hlt
  · intro hc
    rw [advance_stateAt]
    have hlt : p < input.length := by
      by_contra hn
      exact hc (getD_of_le _ _ (Nat.le_of_not_lt hn))
    exact hlt
  · obtain ⟨q, tok, he, _, hq, _, _⟩ := getNextToken_step input p hp
    rw [he]
    exact hq

/-- Witness of C15: on `1 //` followed by a line feed and `2`, the loop head
reached in the second call after the white space, where a comment begins. -/
theorem C15_cursor_bounds_witness :
    AtLoopHead (lit "1 //\n2") (NewLexer (lit "1 //\n2")).getNextToken.2.skipWhitespace ∧
    (NewLexer (lit "1 //\n2")).getNextToken.2.skipWhitespace.currentChar = 47 ∧
    (NewLexer (lit "1 //\n2")).getNextToken.2.skipWhitespace.peek = 47 ∧
    (NewLexer (lit "1 //\n2")).getNextToken.2.skipWhitespace.advance.advance.position ≤
      (lit "1 //\n2").length :=
  ⟨AtLoopHead.afterWhitespace (AtLoopHead.enter (Reachable.step Reachable.init))
      (by decide) (by decide), by decide, by decide,
    ((C15_cursor_bounds (lit "1 //\n2") _
      (AtLoopHead.afterWhitespace (AtLoopHead.enter (Reachable.step Reachable.init))
        (by decide) (by decide))).2.2.2.1 (by decide) (by decide)).2.1⟩

/-- C18 (every single call terminates): in every state `l` at the head of the
loop of `getNextToken`, in a call made in a reachable state (so in particular
in every reachable state):
the loop of `getNextToken` gives the result of the call with any budget of at
least `len(input) - position` iterations, and when the result is `EOF` the loop
was left with `currentChar = 0`; each of its iterations that skips white space
or a comment moves the cursor strictly forward, staying within the input; and
the loops of `skipWhitespace`, `skipComment`, `readNumber` and `readIdentifier`
terminate with `len(input) - position` as decreasing measure
(`LoopTerminates`). -/
theorem C18_every_call_terminates (input : GoString) (l : Lexer) (h : AtLoopHead input l) :
    (∀ fuel, input.length - l.position ≤ fuel → l.getNextTokenLoop fuel = l.getNextToken) ∧
    (l.getNextToken.1.Typ = EOF → l.getNextToken.2.currentChar = 0) ∧
    (l.currentChar ≠ 0 → isSpace l.currentChar = true →
      l.position < l.skipWhitespace.position ∧ l.skipWhitespace.position ≤ input.length) ∧
    (l.currentChar = 47 → l.peek = 47 →
      l.position < l.skipComment.position ∧ l.skipComment.position ≤ input.length) ∧
    LoopTerminates input wsCond (fun n => l.skipWhitespaceLoop n) l.skipWhitespace ∧
    LoopTerminates input commentCond (fun n => l.advance.advance.skipCommentLoop n)
      (l.advance.advance.skipCommentLoop (input.length + 1)) ∧
    LoopTerminates input numCond (fun n => (l.readNumberLoop n []).2) l.readNumber.2 ∧
    LoopTerminates input identCond (fun n => (l.readIdentifierLoop n []).2)
      l.readIdentifier.2 := by
  obtain ⟨p, hp, rfl⟩ := atLoopHead_stateAt h
  refine ⟨fun fuel hf => ?_, fun heof => ?_, fun hc hs => ?_, fun _ hpk => ?_, ?_, ?_, ?_, ?_⟩
  · exact getNextTokenLoop_fuel input fuel (input.length + 1) p hf (by omega)
  · obtain ⟨q, tok, he, _, _, h1, _⟩ := getNextToken_step input p hp
    rw [he] at heof ⊢
    exact (h1 heof).2
  · have hw : wsCond (input.getD p 0) = true := by
      simp only [wsCond, Bool.and_eq_true, decide_eq_true_eq, ne_eq]
      exact ⟨hc, hs⟩
    have h1 := (run_pos wsCond cond_zero.1 input p hw).2
    have h2 := run_le wsCond input p hp
    rw [skipWhitespace_stateAt]
    exact ⟨Nat.lt_of_lt_of_le (Nat.lt_succ_self p) (Nat.add_le_add_left h1 p), h2⟩
  · rw [peek_stateAt] at hpk
    have hlt : p + 1 < input.length := by
      by_contra hn
      rw [getD_of_le _ _ (Nat.le_of_not_lt hn)] at hpk
      exact absurd hpk (by decide)
    obtain ⟨q, hq1, hq2, he⟩ := skipComment_stateAt_exists input p
    rw [he, stateAt_position, stateAt_position]
    exact ⟨by omega, hq2 (by omega)⟩
  · rw [skipWhitespaceLoop_fun, Lexer.skipWhitespace, skipWhitespaceLoop_eq_scanLoop _ []]
    exact scanLoop_terminates wsCond cond_zero.1 input [] p
  · rw [skipCommentLoop_fun, skipCommentLoop_eq_scanLoop _ [], advance_stateAt, advance_stateAt]
    exact scanLoop_terminates commentCond cond_zero.2.1 input [] (p + 1 + 1)
  · rw [readNumberLoop_fun, Lexer.readNumber, readNumberLoop_eq_scanLoop]
    exact scanLoop_terminates numCond cond_zero.2.2.1 input [] p
  · rw [readIdentifierLoop_fun, Lexer.readIdentifier, readIdentifierLoop_eq_scanLoop]
    exact scanLoop_terminates identCond cond_zero.2.2.2 input [] p

/-- Witness of C18: on two spaces followed by `7`, the loop head reached in the
first call after the white space. -/
theorem C18_every_call_terminates_witness :
    AtLoopHead (lit "  7") (NewLexer (lit "  7")).skipWhitespace ∧
    LoopTerminates (lit "  7") numCond
      (fun n => ((NewLexer (lit "  7")).skipWhitespace.readNumberLoop n []).2)
      (NewLexer (lit "  7")).skipWhitespace.readNumber.2 :=
  ⟨AtLoopHead.afterWhitespace (AtLoopHead.enter Reachable.init) (by decide) (by decide),
    (C18_every_call_terminates (lit "  7") _
      (AtLoopHead.afterWhitespace (AtLoopHead.enter Reachable.init) (by decide)
        (by decide))).2.2.2.2.2.2.1⟩


/-! ## Token text and the bytes consumed -/

theorem take_length_takeWhile (cond : Byte → Bool) (s : GoString) :
    s.take (s.takeWhile cond).length = s.takeWhile cond :=
  (List.prefix_iff_eq_take.mp (List.takeWhile_prefix cond)).symm

theorem drop_take_self (s : GoString) (k : Nat) : (s.take k).drop k = [] :=
  List.drop_eq_nil_of_le (List.length_take_le k s)

theorem runesText_singleton (c : Byte) : runesText [c] = runeToString c := by
  simp [runesText]

/-- The text of the token produced at the head of an input `s` that does not
begin with NUL is the text, read as runes, of the last `runeCount Value` of the
bytes it consumes. -/
theorem suffixToken_text (s : GoString) (h0 : s.headD 0 ≠ 0) :
    runeCount (suffixToken s).1.Value ≤ (suffixToken s).2 ∧
      (suffixToken s).1.Value =
        runesText ((s.take (suffixToken s).2).drop
          ((suffixToken s).2 - runeCount (suffixToken s).1.Value)) := by
  cases s with
  | nil => exact absurd rfl h0
  | cons x xs =>
    have hrun : ∀ cond : Byte → Bool,
        runeCount (runesText ((x :: xs).takeWhile cond)) ≤ ((x :: xs).takeWhile cond).length ∧
        runesText ((x :: xs).takeWhile cond) =
          runesText (((x :: xs).take ((x :: xs).takeWhile cond).length).drop
            (((x :: xs).takeWhile cond).length -
              runeCount (runesText ((x :: xs).takeWhile cond)))) := by
      intro cond
      rw [runeCount_runesText, Nat.sub_self, List.drop_zero, take_length_takeWhile]
      exact ⟨Nat.le_refl _, rfl⟩
    have hempty : ∀ k : Nat, runeCount ([] : GoString) ≤ k ∧
        ([] : GoString) = runesText (((x :: xs).take k).drop (k - runeCount ([] : GoString))) := by
      intro k
      rw [show runeCount ([] : GoString) = 0 from rfl, Nat.sub_zero, drop_take_self]
      exact ⟨Nat.zero_le _, rfl⟩
    have hone : runeCount (runeToString x) ≤ 1 ∧
        runeToString x =
          runesText (((x :: xs).take 1).drop (1 - runeCount (runeToString x))) := by
      rw [runeCount_runeToString, Nat.sub_self, List.drop_zero]
      exact ⟨Nat.le_refl _, (runesText_singleton x).symm⟩
    unfold suffixToken
    simp only [List.headD_cons]
    split_ifs
    · exact hrun numCond
    · exact hempty _
    · exact hempty _
    · exact hrun identCond
    · exact hone
    · exact hempty 1
    · exact hempty 1
    · exact hempty 1
    · exact hone

theorem window_shift (input : GoString) (q k n : Nat) (hn : n ≤ k) :
    (input.take (q + k)).drop (q + k - n) = ((input.drop q).take k).drop (k - n) := by
  have e1 : q + k - (q + k - n) = k - (k - n) := by omega
  have e2 : q + k - n = q + (k - n) := by omega
  rw [List.drop_take, List.drop_take, List.drop_drop, e1, e2]

/-- What the token text is: in every reachable state, the `Value` of the token
returned by `getNextToken` is the concatenation of `string(rune(b))` over the
last `runeCount Value` bytes `b` before the cursor.  For bytes below `0x80`
this is the bytes themselves; a byte from `0x80` on contributes the two bytes
of the UTF-8 encoding of the code point of the same number. -/
theorem token_text_of_consumed (input : GoString) (l : Lexer) (h : Reachable input l) :
    runeCount l.getNextToken.1.Value ≤ l.getNextToken.2.position ∧
    l.getNextToken.1.Value =
      runesText ((input.take l.getNextToken.2.position).drop
        (l.getNextToken.2.position - runeCount l.getNextToken.1.Value)) := by
  obtain ⟨p, hp, rfl⟩ := reachable_stateAt h
  refine getNextToken_induction input
    (fun _ r => runeCount r.1.Value ≤ r.2.position ∧
      r.1.Value = runesText ((input.take r.2.position).drop
        (r.2.position - runeCount r.1.Value))) ?_ ?_ ?_ p hp
  · intro q _ _
    refine ⟨Nat.zero_le _, ?_⟩
    show ([] : GoString) = runesText ((input.take q).drop (q - 0))
    rw [Nat.sub_zero, drop_take_self]
    rfl
  · intro _ _ _ _ _ _ hr
    exact hr
  · intro q _ hc _ _
    rw [produceToken_suffix]
    obtain ⟨h1, h2⟩ := suffixToken_text (input.drop q)
      (by rw [← getD_eq_headD_drop]; exact hc)
    refine ⟨Nat.le_trans h1 (Nat.le_add_left _ _), ?_⟩
    simp only [stateAt_position]
    rw [window_shift input q _ _ h1]
    exact h2

/-- An input of white-space bytes (tab, line feed, vertical tab, form feed,
carriage return, space, `0x85`, `0xA0`) yields `EOF` at the first call. -/
theorem whitespace_bytes_skipped (input : GoString)
    (h : ∀ b ∈ input, b ≠ 0 ∧ isSpace b = true) :
    (NewLexer input).getNextToken.1 = ⟨EOF, []⟩ := by
  have hall : ∀ b ∈ input, wsCond b = true := by
    intro b hb
    simp only [wsCond, Bool.and_eq_true, decide_eq_true_eq, ne_eq]
    exact h b hb
  have hend : (stateAt input input.length).getNextToken =
      (⟨EOF, []⟩, stateAt input input.length) := by
    rw [getNextToken_stateAt, stateAt_currentChar, if_pos (getD_of_le _ _ (Nat.le_refl _))]
  rw [NewLexer_eq]
  cases input with
  | nil => exact congrArg Prod.fst hend
  | cons x xs =>
    have hx := h x (List.mem_cons_self _ _)
    have hrun : ((x :: xs).drop 0).takeWhile wsCond = x :: xs := by
      rw [List.drop_zero, List.takeWhile_eq_self_iff]
      exact hall
    rw [getNextToken_stateAt, stateAt_currentChar, show (x :: xs).getD 0 0 = x from rfl,
      if_neg hx.1, if_pos hx.2, skipWhitespace_stateAt, hrun, Nat.zero_add, hend]

/-- C11, evaluated on the UTF-8 text of U+00E9 (e with acute accent), the bytes
`C3 A9`: the first call
consumes the one byte `C3` and returns `ID` with the two-byte `Value` `C3 83`
(the UTF-8 text of U+00C3), which is longer than the input before the cursor
and differs from every part of the input; the second call consumes `A9` and
returns `INVALID` with `Value` `C2 A9`, while the two bytes before the cursor
are `C3 A9`. -/
theorem C11_value_not_source_bytes :
    lit "\u00e9" = [0xC3, 0xA9] ∧
    (NewLexer (lit "\u00e9")).getNextToken = (⟨ID, [0xC3, 0x83]⟩, ⟨lit "\u00e9", 1, 0xA9⟩) ∧
    ((lit "\u00e9").take 1).drop (1 - ([0xC3, 0x83] : GoString).length) = [0xC3] ∧
    (NewLexer (lit "\u00e9")).getNextToken.2.getNextToken =
      (⟨INVALID, [0xC2, 0xA9]⟩, ⟨lit "\u00e9", 2, 0⟩) ∧
    ((lit "\u00e9").take 2).drop (2 - ([0xC2, 0xA9] : GoString).length) = [0xC3, 0xA9] := by
  decide

/-- C13, evaluated on the UTF-8 text of the white-space characters U+00A0 (the
bytes `C2 A0`) and U+2003 (the bytes `E2 80 83`): the first call returns not
`EOF` but an `ID` token, with `Value` the UTF-8 text of U+00C2 and of U+00E2,
because the first byte read as a rune is a letter. -/
theorem C13_unicode_whitespace_yields_token :
    lit "\u00a0" = [0xC2, 0xA0] ∧
    (NewLexer (lit "\u00a0")).getNextToken.1 = ⟨ID, [0xC3, 0x82]⟩ ∧
    tokenize (lit "\u00a0") = [⟨ID, [0xC3, 0x82]⟩, ⟨EOF, []⟩] ∧
    lit "\u2003" = [0xE2, 0x80, 0x83] ∧
    (NewLexer (lit "\u2003")).getNextToken.1 = ⟨ID, [0xC3, 0xA2]⟩ := by
  decide


end GoLexer
